/-
Verification of the ThumbnailCache component (LRU cache for decoded
thumbnail bitmaps with request coalescing and a throttled admission queue).

The model is a shallow embedding of the TypeScript class `ThumbnailCache`.
JavaScript `Map` objects are modelled as association lists with
insertion-order-significant iteration (`mapGet` / `mapSet` / `mapDelete`
reproduce `Map.get` / `Map.set` / `Map.delete` semantics: `set` updates an
existing key in place, otherwise appends; `delete` removes the unique
binding).  The single-threaded async execution is modelled as a labelled
transition system: synchronous public methods are single steps, and the
settlement of an active `createImageBitmap` decode (together with the
microtask chain it triggers: the `load` continuation that evicts and
inserts, the promise resolution, the `finally` handlers that delete the
pending entry, decrement the active count, and re-drain the queue) is one
`settle` step.  `while` loops are translated as fuel-bounded recursion with
fuel equal to a bound on the iteration count, so every definition is
executable and kernel-reducible.

The external decoder is modelled by attaching to each `File` its decode
outcome (dimensions on success, or failure); decoded `ImageBitmap` handles
are identified by an allocation counter, and released handles are recorded
in a `closed` list so that resource-release claims are statable.
-/
import Mathlib

namespace ThumbCache

/-- A decoded `ImageBitmap` handle: an allocation identity plus pixel
dimensions.  The identity makes "the identity-same object" statable. -/
structure Bitmap where
  id : Nat
  width : Nat
  height : Nat
deriving DecidableEq, Repr

/-- `CacheEntry` from the source: bitmap handle, dimensions, and decoded
byte footprint `size = width * height * 4` (RGBA). -/
structure CacheEntry where
  bitmap : Bitmap
  width : Nat
  height : Nat
  size : Nat
deriving DecidableEq, Repr

/-- Outcome of `createImageBitmap` on a given file: either a raster of the
given dimensions, or a decode failure. -/
inductive DecodeOutcome where
  | ok (width height : Nat)
  | err
deriving DecidableEq, Repr

/-- A source blob.  The decode outcome is a fixed attribute of the file
(the decoder is deterministic); only settlement timing is scheduled. -/
structure File where
  outcome : DecodeOutcome
deriving DecidableEq, Repr

/-- `QueuedLoad` from the source: an admitted-but-not-started request.
The `resolve`/`reject` continuations are represented by the identifier of
the promise they settle. -/
structure QueuedLoad where
  volumeUuid : String
  file : File
  promise : Nat
deriving DecidableEq, Repr

/-- An active decode: a popped queue item whose `createImageBitmap` call
is in flight (between `load` being entered and its settlement). -/
structure ActiveLoad where
  volumeUuid : String
  file : File
  promise : Nat
deriving DecidableEq, Repr

/-- Status of a `Promise<CacheEntry>` created by `get`. -/
inductive PromiseState where
  | pending
  | resolved (entry : CacheEntry)
  | rejected
deriving DecidableEq, Repr

/-- `Map.get`: value of the first (unique) binding of `k`. -/
def mapGet {κ α : Type} [DecidableEq κ] : List (κ × α) → κ → Option α
  | [], _ => none
  | (k', v) :: rest, k => if k' = k then some v else mapGet rest k

/-- `Map.set`: update an existing binding in place, else append. -/
def mapSet {κ α : Type} [DecidableEq κ] : List (κ × α) → κ → α → List (κ × α)
  | [], k, v => [(k, v)]
  | (k', v') :: rest, k, v =>
      if k' = k then (k, v) :: rest else (k', v') :: mapSet rest k v

/-- `Map.delete`: remove the first (unique) binding of `k`. -/
def mapDelete {κ α : Type} [DecidableEq κ] (m : List (κ × α)) (k : κ) :
    List (κ × α) :=
  m.eraseP (fun p => p.1 == k)

/-- The keys of a map, in iteration order. -/
def keysOf {κ α : Type} (m : List (κ × α)) : List κ := m.map Prod.fst

/-- The full mutable state of a `ThumbnailCache` instance, together with
the promise table that records every promise `get` has handed out.
`cache` iterates least-recently-used first; `activeLoads` of the source is
`active.length` (the source keeps only the count, the decodes themselves
living in closures; the model reifies them). `closed` lists the ids of
bitmaps on which `.close()` has been called. -/
structure CacheState where
  cache : List (String × CacheEntry)
  pending : List (String × Nat)
  totalBytes : Int
  maxBytes : Int
  queue : List QueuedLoad
  active : List ActiveLoad
  maxConcurrent : Nat
  promises : List (Nat × PromiseState)
  nextPromise : Nat
  nextBitmap : Nat
  closed : List Nat
deriving DecidableEq, Repr

/-- The freshly constructed `ThumbnailCache`: `maxBytes = 50 * 1024 * 1024`
and `maxConcurrent = 6` as in the source field initializers. -/
def initState : CacheState :=
  { cache := [], pending := [], totalBytes := 0
    maxBytes := 50 * 1024 * 1024, queue := [], active := []
    maxConcurrent := 6, promises := [], nextPromise := 0, nextBitmap := 0
    closed := [] }

/-- `touch`: move an entry to the end of the map (most recently used) by
`delete` followed by `set`. -/
def touch (s : CacheState) (volumeUuid : String) : CacheState :=
  match mapGet s.cache volumeUuid with
  | some entry =>
      { s with cache := mapSet (mapDelete s.cache volumeUuid) volumeUuid entry }
  | none => s

/-- `has`: membership check against the store only. -/
def has (s : CacheState) (volumeUuid : String) : Bool :=
  (mapGet s.cache volumeUuid).isSome

/-- `getSync`: synchronous lookup; touches recency on a hit. -/
def getSync (s : CacheState) (volumeUuid : String) :
    CacheState × Option CacheEntry :=
  match mapGet s.cache volumeUuid with
  | some entry => (touch s volumeUuid, some entry)
  | none => (s, none)

/-- `getStats` (without the formatted `utilization` string, which is pure
presentation): entry count, running byte total, budget. -/
def getStats (s : CacheState) : Nat × Int × Int :=
  (s.cache.length, s.totalBytes, s.maxBytes)

/-- `evictLRU`: close the first (least recently used) entry's bitmap,
subtract its size, and delete it. -/
def evictLRU (s : CacheState) : CacheState :=
  match s.cache with
  | [] => s
  | (firstKey, _) :: _ =>
      match mapGet s.cache firstKey with
      | some entry =>
          { s with closed := s.closed ++ [entry.bitmap.id]
                   totalBytes := s.totalBytes - (entry.size : Int)
                   cache := mapDelete s.cache firstKey }
      | none => s

/-- The eviction loop of `load`:
`while (totalBytes + size > maxBytes && cache.size > 0) evictLRU()`,
as fuel-bounded recursion (each iteration removes one entry, so
`cache.length` fuel suffices). -/
def evictLoopFuel : Nat → CacheState → Nat → CacheState
  | 0, s, _ => s
  | fuel + 1, s, size =>
      if s.totalBytes + (size : Int) > s.maxBytes ∧ s.cache ≠ [] then
        evictLoopFuel fuel (evictLRU s) size
      else s

/-- The eviction loop with its natural fuel. -/
def evictLoop (s : CacheState) (size : Nat) : CacheState :=
  evictLoopFuel s.cache.length s size

/-- The continuation of `load` after `createImageBitmap` resolves with a
`width × height` raster: allocate the bitmap handle, run the eviction
loop, insert the new entry at the most-recently-used position, and add its
size to the running total.  Returns the new state and the entry. -/
def loadComplete (s : CacheState) (volumeUuid : String)
    (width height : Nat) : CacheState × CacheEntry :=
  let bitmap : Bitmap := { id := s.nextBitmap, width, height }
  let size := width * height * 4
  let s1 := { s with nextBitmap := s.nextBitmap + 1 }
  let s2 := evictLoop s1 size
  let entry : CacheEntry := { bitmap, width, height, size }
  ({ s2 with cache := mapSet s2.cache volumeUuid entry
             totalBytes := s2.totalBytes + (size : Int) }, entry)

/-- Starting a queued load: the popped item becomes an active decode
(the load suspends at `createImageBitmap` immediately). -/
def toActive (q : QueuedLoad) : ActiveLoad :=
  ⟨q.volumeUuid, q.file, q.promise⟩

/-- `processQueue`:
`while (queue.length > 0 && activeLoads < maxConcurrent)` pop the MOST
recently queued item (FILO) and start its load (the load suspends at
`createImageBitmap`, so starting it moves the item to `active` and
increments the active count).  Fuel-bounded; each iteration shortens the
queue by one. -/
def processQueueFuel : Nat → CacheState → CacheState
  | 0, s => s
  | fuel + 1, s =>
      if h : s.queue ≠ [] ∧ s.active.length < s.maxConcurrent then
        let item := s.queue.getLast h.1
        processQueueFuel fuel
          { s with queue := s.queue.dropLast
                   active := s.active ++ [toActive item] }
      else s

/-- `processQueue` with its natural fuel. -/
def processQueue (s : CacheState) : CacheState :=
  processQueueFuel s.queue.length s

/-- Result of a `get` call, from the caller's viewpoint: a synchronous
cache hit, a join of an in-flight request (the shared promise), or a newly
queued request (the fresh promise). -/
inductive GetResult where
  | hit (entry : CacheEntry)
  | joined (promise : Nat)
  | queued (promise : Nat)
deriving DecidableEq, Repr

/-- `get`: cache hit (touch and return), else join the pending promise,
else create a promise, push the request onto the queue, record it in the
pending map, and drain the queue. -/
def get (s : CacheState) (volumeUuid : String) (file : File) :
    CacheState × GetResult :=
  match mapGet s.cache volumeUuid with
  | some existing => (touch s volumeUuid, .hit existing)
  | none =>
    match mapGet s.pending volumeUuid with
    | some pendingLoad => (s, .joined pendingLoad)
    | none =>
        let p := s.nextPromise
        let s1 := { s with promises := s.promises ++ [(p, PromiseState.pending)]
                           nextPromise := p + 1
                           queue := s.queue ++ [QueuedLoad.mk volumeUuid file p] }
        let s2 := { s1 with pending := mapSet s1.pending volumeUuid p }
        (processQueue s2, .queued p)

/-- Settlement of the active decode at index `i` and the microtask chain
it triggers: on success the `load` continuation evicts and inserts and the
promise resolves to the entry; on failure the promise rejects.  Then the
request leaves the active set, `get`'s `finally` deletes the pending
entry, and `processQueue` re-drains.  Out-of-range `i` is no event. -/
def settleActive (s : CacheState) (i : Nat) : CacheState :=
  match s.active.get? i with
  | none => s
  | some item =>
    let sAfter :=
      match item.file.outcome with
      | .ok w h =>
          let r := loadComplete s item.volumeUuid w h
          { r.1 with promises := mapSet r.1.promises item.promise
                       (.resolved r.2) }
      | .err =>
          { s with promises := mapSet s.promises item.promise .rejected }
    processQueue
      { sAfter with active := sAfter.active.eraseIdx i
                    pending := mapDelete sAfter.pending item.volumeUuid }

/-- `invalidate`: if the key is stored, close its bitmap, subtract its
size, and delete it; in all cases delete the pending entry and strip the
key's requests from the admission queue. -/
def invalidate (s : CacheState) (volumeUuid : String) : CacheState :=
  let s1 :=
    match mapGet s.cache volumeUuid with
    | some entry =>
        { s with closed := s.closed ++ [entry.bitmap.id]
                 totalBytes := s.totalBytes - (entry.size : Int)
                 cache := mapDelete s.cache volumeUuid }
    | none => s
  { s1 with pending := mapDelete s1.pending volumeUuid
            queue := s1.queue.filter (fun item => item.volumeUuid != volumeUuid) }

/-- `clear`: close every stored bitmap, empty the store, zero the total. -/
def clear (s : CacheState) : CacheState :=
  { s with closed := s.closed ++ s.cache.map (fun p => p.2.bitmap.id)
           cache := [], totalBytes := 0 }

/-- Events of the labelled transition system: the public synchronous
operations, plus the settlement of the active decode at a given index. -/
inductive Event where
  | get (volumeUuid : String) (file : File)
  | settle (i : Nat)
  | invalidate (volumeUuid : String)
  | clear
  | getSync (volumeUuid : String)
deriving DecidableEq, Repr

/-- One step of the system. -/
def step (s : CacheState) (e : Event) : CacheState :=
  match e with
  | .get k f => (get s k f).1
  | .settle i => settleActive s i
  | .invalidate k => invalidate s k
  | .clear => clear s
  | .getSync k => (getSync s k).1

/-- Replay a sequence of events. -/
def run (s : CacheState) (es : List Event) : CacheState := es.foldl step s

/-- Number of in-flight requests for a key: queued plus active. -/
def inflightCount (s : CacheState) (k : String) : Nat :=
  (s.queue.filter (fun q => q.volumeUuid == k)).length +
    (s.active.filter (fun a => a.volumeUuid == k)).length

/-- A trace is `good` when every `invalidate k` is issued while no request
for `k` is in flight (queued or active). -/
def goodTrace (s : CacheState) : List Event → Bool
  | [] => true
  | e :: rest =>
      (match e with
       | .invalidate k => inflightCount s k == 0
       | _ => true) && goodTrace (step s e) rest

/-- Sum of the `size` fields over a store, as the running total counts it. -/
def sumSizes (c : List (String × CacheEntry)) : Int :=
  (c.map (fun p => (p.2.size : Int))).sum

/-! ### Association-list (JS `Map`) lemmas -/

theorem mapDelete_nil {κ α : Type} [DecidableEq κ] (k : κ) :
    mapDelete ([] : List (κ × α)) k = [] := rfl

theorem mapDelete_cons {κ α : Type} [DecidableEq κ] (k' : κ) (v : α) (rest : List (κ × α)) (k : κ) :
    mapDelete ((k', v) :: rest) k =
      if k' = k then rest else (k', v) :: mapDelete rest k := by
  by_cases h : k' = k
  · simp [mapDelete, List.eraseP_cons, h]
  · simp [mapDelete, List.eraseP_cons, h]

theorem mapGet_mapSet_self {κ α : Type} [DecidableEq κ] (m : List (κ × α)) (k : κ) (v : α) :
    mapGet (mapSet m k v) k = some v := by
  induction m with
  | nil => simp [mapSet, mapGet]
  | cons p rest ih =>
      obtain ⟨k', v'⟩ := p
      by_cases h : k' = k
      · simp [mapSet, mapGet, h]
      · simp [mapSet, mapGet, h, ih]

theorem mapGet_mapSet_ne {κ α : Type} [DecidableEq κ] (m : List (κ × α)) (k k' : κ) (v : α)
    (h : k' ≠ k) : mapGet (mapSet m k v) k' = mapGet m k' := by
  induction m with
  | nil => simp [mapSet, mapGet, Ne.symm h]
  | cons p rest ih =>
      obtain ⟨k'', v''⟩ := p
      by_cases h2 : k'' = k
      · subst h2
        simp [mapSet, mapGet, Ne.symm h]
      · by_cases h3 : k'' = k'
        · subst h3
          simp [mapSet, mapGet, h2]
        · simp [mapSet, mapGet, h2, h3, ih]

theorem mapSet_of_mapGet_none {κ α : Type} [DecidableEq κ] (m : List (κ × α)) (k : κ) (v : α)
    (h : mapGet m k = none) : mapSet m k v = m ++ [(k, v)] := by
  induction m with
  | nil => simp [mapSet]
  | cons p rest ih =>
      obtain ⟨k', v'⟩ := p
      by_cases h2 : k' = k
      · simp [mapGet, h2] at h
      · simp [mapGet, h2] at h
        simp [mapSet, h2, ih h]

theorem mapGet_mapDelete_ne {κ α : Type} [DecidableEq κ] (m : List (κ × α)) (k k' : κ)
    (h : k' ≠ k) : mapGet (mapDelete m k) k' = mapGet m k' := by
  induction m with
  | nil => rw [mapDelete_nil]
  | cons p rest ih =>
      obtain ⟨k'', v''⟩ := p
      rw [mapDelete_cons]
      by_cases h2 : k'' = k
      · subst h2
        simp [mapGet, Ne.symm h]
      · rw [if_neg h2]
        simp [mapGet, ih]

theorem mapGet_eq_none_iff {κ α : Type} [DecidableEq κ] (m : List (κ × α)) (k : κ) :
    mapGet m k = none ↔ k ∉ keysOf m := by
  induction m with
  | nil => simp [mapGet, keysOf]
  | cons p rest ih =>
      obtain ⟨k', v'⟩ := p
      by_cases h : k' = k
      · subst h
        simp [mapGet, keysOf]
      · simp only [mapGet, if_neg h, keysOf, List.map_cons, List.mem_cons, not_or]
        rw [show (k ∉ (keysOf rest : List κ)) = (¬ k ∈ keysOf rest) from rfl] at ih
        constructor
        · intro hk
          refine ⟨?_, (ih.mp hk)⟩
          intro hh
          exact h hh.symm
        · intro hk
          exact ih.mpr hk.2

theorem mapGet_mapDelete_self_of_nodup {κ α : Type} [DecidableEq κ] (m : List (κ × α)) (k : κ)
    (h : (keysOf m).Nodup) : mapGet (mapDelete m k) k = none := by
  induction m with
  | nil => rw [mapDelete_nil]; rfl
  | cons p rest ih =>
      obtain ⟨k', v'⟩ := p
      simp only [keysOf, List.map_cons, List.nodup_cons] at h
      rw [mapDelete_cons]
      by_cases h2 : k' = k
      · subst h2
        rw [if_pos rfl, mapGet_eq_none_iff]
        exact h.1
      · rw [if_neg h2]
        simp only [mapGet, if_neg h2]
        exact ih h.2

theorem mapGet_append_left {κ α : Type} [DecidableEq κ] (m m' : List (κ × α)) (k : κ) (v : α)
    (h : mapGet m k = some v) : mapGet (m ++ m') k = some v := by
  induction m with
  | nil => simp [mapGet] at h
  | cons p rest ih =>
      obtain ⟨k', v'⟩ := p
      by_cases h2 : k' = k
      · simp [mapGet, h2] at h ⊢
        exact h
      · simp [mapGet, h2] at h ⊢
        exact ih h

theorem mapGet_append_none {κ α : Type} [DecidableEq κ] (m m' : List (κ × α)) (k : κ)
    (h : mapGet m k = none) : mapGet (m ++ m') k = mapGet m' k := by
  induction m with
  | nil => simp
  | cons p rest ih =>
      obtain ⟨k', v'⟩ := p
      by_cases h2 : k' = k
      · simp [mapGet, h2] at h
      · simp [mapGet, h2] at h ⊢
        exact ih h

/-! ### Closed form of the admission-queue drain -/

/-- How many queued items one `processQueue` call starts: every free
concurrency slot takes one item, until the queue runs out. -/
def startCount (s : CacheState) : Nat :=
  min s.queue.length (s.maxConcurrent - s.active.length)

theorem processQueueFuel_eq (fuel : Nat) :
    ∀ s : CacheState, s.queue.length ≤ fuel →
      processQueueFuel fuel s =
        { s with
          queue := s.queue.take (s.queue.length - startCount s)
          active := s.active ++
            ((s.queue.drop (s.queue.length - startCount s)).reverse.map toActive) } := by
  induction fuel with
  | zero =>
      intro s hf
      obtain ⟨ca, pe, tb, mb, qu, ac, mc, pr, np, nb, cl⟩ := s
      have hq : qu = [] := List.eq_nil_of_length_eq_zero (Nat.le_zero.mp hf)
      subst hq
      simp [processQueueFuel, startCount]
  | succ fuel ih =>
      intro s hf
      by_cases h : s.queue ≠ [] ∧ s.active.length < s.maxConcurrent
      · have hlen : 1 ≤ s.queue.length := List.length_pos.mpr h.1
        have hlt : s.active.length < s.maxConcurrent := h.2
        have hc1 : 1 ≤ startCount s := by
          unfold startCount
          omega
        have hcle : startCount s ≤ s.queue.length := Nat.min_le_left _ _
        set s' : CacheState :=
          { s with queue := s.queue.dropLast
                   active := s.active ++ [toActive (s.queue.getLast h.1)] } with hs'
        have eq1 : s'.queue = s.queue.dropLast := rfl
        have eq2 : s'.active = s.active ++ [toActive (s.queue.getLast h.1)] := rfl
        have eq3 : s'.maxConcurrent = s.maxConcurrent := rfl
        have hstep : processQueueFuel (fuel + 1) s = processQueueFuel fuel s' := by
          rw [processQueueFuel, dif_pos h]
        have hlen' : s'.queue.length = s.queue.length - 1 := by
          rw [eq1, List.length_dropLast]
        have hact' : s'.active.length = s.active.length + 1 := by
          rw [eq2, List.length_append, List.length_singleton]
        have hfc : s'.queue.length ≤ fuel := by omega
        have hc' : startCount s' = startCount s - 1 := by
          unfold startCount
          rw [hlen', hact', eq3]
          omega
        have h1 : s'.queue.length - startCount s' =
            s.queue.length - startCount s := by omega
        have hgen : ∀ n, n ≤ s.queue.length - 1 →
            s.queue.drop n = s.queue.dropLast.drop n ++ [s.queue.getLast h.1] := by
          intro n hn
          conv_lhs => rw [← List.dropLast_append_getLast h.1]
          rw [List.drop_append_of_le_length (by rw [List.length_dropLast]; omega)]
        have hqeq : s'.queue.take (s'.queue.length - startCount s') =
            s.queue.take (s.queue.length - startCount s) := by
          rw [h1, eq1, List.dropLast_eq_take, List.take_take]
          have h2 : min (s.queue.length - startCount s) (s.queue.length - 1) =
              s.queue.length - startCount s := by omega
          rw [h2]
        have haeq : s'.active ++
              ((s'.queue.drop (s'.queue.length - startCount s')).reverse.map toActive) =
            s.active ++
              ((s.queue.drop (s.queue.length - startCount s)).reverse.map toActive) := by
          rw [h1, eq1, eq2, hgen (s.queue.length - startCount s) (by omega),
            List.reverse_append, List.reverse_singleton, List.singleton_append,
            List.map_cons]
          simp only [List.append_assoc, List.singleton_append]
        rw [hstep, ih s' hfc]
        simp only [CacheState.mk.injEq, and_true, true_and]
        exact ⟨hqeq, haeq⟩
      · have hout : processQueueFuel (fuel + 1) s = s := by
          rw [processQueueFuel]
          rw [dif_neg h]
        push_neg at h
        by_cases hq : s.queue = []
        · obtain ⟨ca, pe, tb, mb, qu, ac, mc, pr, np, nb, cl⟩ := s
          simp only at hq
          subst hq
          simp [hout, startCount]
        · have hmax : s.maxConcurrent ≤ s.active.length := h hq
          have hc0 : startCount s = 0 := by
            unfold startCount
            omega
          obtain ⟨ca, pe, tb, mb, qu, ac, mc, pr, np, nb, cl⟩ := s
          simp only at hc0
          simp [hout, hc0]

/-- The drain in one equation: `processQueue` starts the `startCount s`
most recently queued items, most recent first, and leaves the older ones
queued. -/
theorem processQueue_eq (s : CacheState) :
    processQueue s =
      { s with
        queue := s.queue.take (s.queue.length - startCount s)
        active := s.active ++
          ((s.queue.drop (s.queue.length - startCount s)).reverse.map toActive) } :=
  processQueueFuel_eq s.queue.length s (Nat.le_refl _)

theorem processQueue_queue (s : CacheState) :
    (processQueue s).queue = s.queue.take (s.queue.length - startCount s) := by
  rw [processQueue_eq]

theorem processQueue_active (s : CacheState) :
    (processQueue s).active = s.active ++
      ((s.queue.drop (s.queue.length - startCount s)).reverse.map toActive) := by
  rw [processQueue_eq]

theorem processQueue_cache (s : CacheState) : (processQueue s).cache = s.cache := by
  rw [processQueue_eq]

theorem processQueue_pending (s : CacheState) : (processQueue s).pending = s.pending := by
  rw [processQueue_eq]

theorem processQueue_totalBytes (s : CacheState) :
    (processQueue s).totalBytes = s.totalBytes := by
  rw [processQueue_eq]

theorem processQueue_maxBytes (s : CacheState) : (processQueue s).maxBytes = s.maxBytes := by
  rw [processQueue_eq]

theorem processQueue_maxConcurrent (s : CacheState) :
    (processQueue s).maxConcurrent = s.maxConcurrent := by
  rw [processQueue_eq]

theorem processQueue_promises (s : CacheState) :
    (processQueue s).promises = s.promises := by
  rw [processQueue_eq]

theorem processQueue_nextPromise (s : CacheState) :
    (processQueue s).nextPromise = s.nextPromise := by
  rw [processQueue_eq]

theorem processQueue_nextBitmap (s : CacheState) :
    (processQueue s).nextBitmap = s.nextBitmap := by
  rw [processQueue_eq]

theorem processQueue_closed (s : CacheState) : (processQueue s).closed = s.closed := by
  rw [processQueue_eq]

theorem processQueue_length_active (s : CacheState) :
    (processQueue s).active.length = s.active.length + startCount s := by
  rw [processQueue_active]
  have hcle : startCount s ≤ s.queue.length := Nat.min_le_left _ _
  simp only [List.length_append, List.length_map, List.length_reverse,
    List.length_drop]
  omega

/-- Draining never pushes the active count above the ceiling. -/
theorem processQueue_active_le (s : CacheState)
    (h : s.active.length ≤ s.maxConcurrent) :
    (processQueue s).active.length ≤ s.maxConcurrent := by
  rw [processQueue_length_active]
  unfold startCount
  omega

theorem filter_take_drop_length {α : Type} (p : α → Bool) (l : List α) (n : Nat) :
    ((l.take n).filter p).length + ((l.drop n).filter p).length =
      (l.filter p).length := by
  rw [← List.length_append, ← List.filter_append, List.take_append_drop]

/-- Draining moves requests from the queue to the active set without
changing the per-key number of in-flight requests. -/
theorem processQueue_inflight (s : CacheState) (k : String) :
    inflightCount (processQueue s) k = inflightCount s k := by
  unfold inflightCount
  rw [processQueue_queue, processQueue_active]
  rw [List.filter_append, List.length_append]
  have hmap : (((s.queue.drop (s.queue.length - startCount s)).reverse.map
        toActive).filter (fun a => a.volumeUuid == k)) =
      (((s.queue.drop (s.queue.length - startCount s)).reverse.filter
        (fun q => q.volumeUuid == k)).map toActive) := by
    rw [List.filter_map]
    rfl
  rw [hmap, List.length_map, List.filter_reverse, List.length_reverse]
  have := filter_take_drop_length (fun q => q.volumeUuid == k) s.queue
    (s.queue.length - startCount s)
  omega

/-! ### Characterization of the eviction loop -/

theorem sumSizes_nil : sumSizes [] = 0 := rfl

theorem sumSizes_cons (k : String) (e : CacheEntry) (rest : List (String × CacheEntry)) :
    sumSizes ((k, e) :: rest) = (e.size : Int) + sumSizes rest := by
  simp [sumSizes]

theorem evictLRU_cons (s : CacheState) (k : String) (e : CacheEntry)
    (rest : List (String × CacheEntry)) (h : s.cache = (k, e) :: rest) :
    evictLRU s =
      { s with closed := s.closed ++ [e.bitmap.id]
               totalBytes := s.totalBytes - (e.size : Int)
               cache := rest } := by
  unfold evictLRU
  rw [h]
  simp [mapGet, mapDelete_cons]

/-- The eviction loop removes exactly the shortest least-recently-used
prefix of the store whose removal brings `totalBytes + size` within
budget (or empties the store), releasing each removed entry's bitmap and
subtracting its size. -/
theorem evictLoopFuel_spec (fuel : Nat) :
    ∀ (s : CacheState) (size : Nat),
      s.cache.length ≤ fuel →
      s.totalBytes = sumSizes s.cache →
      ∃ n, n ≤ s.cache.length ∧
        evictLoopFuel fuel s size =
          { s with cache := s.cache.drop n
                   totalBytes := sumSizes (s.cache.drop n)
                   closed := s.closed ++
                     (s.cache.take n).map (fun p => p.2.bitmap.id) } ∧
        (∀ m, m < n → sumSizes (s.cache.drop m) + (size : Int) > s.maxBytes) ∧
        (sumSizes (s.cache.drop n) + (size : Int) ≤ s.maxBytes ∨
          n = s.cache.length) := by
  induction fuel with
  | zero =>
      intro s size hf hsum
      have hq : s.cache = [] := List.eq_nil_of_length_eq_zero (Nat.le_zero.mp hf)
      refine ⟨0, Nat.zero_le _, ?_, ?_, Or.inr (by rw [hq]; rfl)⟩
      · rw [List.drop_zero, List.take_zero, List.map_nil, List.append_nil, ← hsum]
        rfl
      · intro m hm
        omega
  | succ fuel ih =>
      intro s size hf hsum
      by_cases hguard : s.totalBytes + (size : Int) > s.maxBytes ∧ s.cache ≠ []
      · obtain ⟨k, e, rest, hc⟩ : ∃ k e rest, s.cache = (k, e) :: rest := by
          cases hcc : s.cache with
          | nil => exact absurd hcc hguard.2
          | cons p rest =>
              obtain ⟨k, e⟩ := p
              exact ⟨k, e, rest, rfl⟩
        have hstep : evictLoopFuel (fuel + 1) s size =
            evictLoopFuel fuel (evictLRU s) size := by
          rw [evictLoopFuel, if_pos hguard]
        set s1 : CacheState :=
          { s with closed := s.closed ++ [e.bitmap.id]
                   totalBytes := s.totalBytes - (e.size : Int)
                   cache := rest } with hs1
        have hev : evictLRU s = s1 := evictLRU_cons s k e rest hc
        have e1 : s1.cache = rest := rfl
        have e2 : s1.maxBytes = s.maxBytes := rfl
        have e3 : s1.closed = s.closed ++ [e.bitmap.id] := rfl
        have hclen : s.cache.length = rest.length + 1 := by
          rw [hc]
          rfl
        have hlen1 : s1.cache.length ≤ fuel := by
          rw [e1]
          omega
        have hsum1 : s1.totalBytes = sumSizes s1.cache := by
          have e4 : s1.totalBytes = s.totalBytes - (e.size : Int) := rfl
          rw [e1, e4, hsum, hc, sumSizes_cons]
          ring
        obtain ⟨n, hn, heq, hmin, hexit⟩ := ih s1 size hlen1 hsum1
        rw [e1] at hn
        rw [e1, e2] at hmin hexit
        have hdrop : s.cache.drop (n + 1) = rest.drop n := by
          rw [hc, List.drop_succ_cons]
        refine ⟨n + 1, by omega, ?_, ?_, ?_⟩
        · rw [hstep, hev, heq, e1, e3]
          have htake : (s.cache.take (n + 1)).map (fun p => p.2.bitmap.id) =
              e.bitmap.id :: (rest.take n).map (fun p => p.2.bitmap.id) := by
            rw [hc, List.take_succ_cons, List.map_cons]
          rw [hdrop, htake, List.append_assoc, List.singleton_append]
        · intro m hm
          cases m with
          | zero =>
              rw [List.drop_zero, ← hsum]
              exact hguard.1
          | succ m' =>
              have hd : s.cache.drop (m' + 1) = rest.drop m' := by
                rw [hc, List.drop_succ_cons]
              rw [hd]
              exact hmin m' (by omega)
        · rw [hdrop]
          rcases hexit with h1 | h1
          · exact Or.inl h1
          · exact Or.inr (by omega)
      · refine ⟨0, Nat.zero_le _, ?_, by intro m hm; omega, ?_⟩
        · rw [evictLoopFuel, if_neg hguard]
          rw [List.drop_zero, List.take_zero, List.map_nil, List.append_nil, ← hsum]
        · by_cases hcc : s.cache = []
          · exact Or.inr (by rw [hcc]; rfl)
          · have hle : ¬ (s.totalBytes + (size : Int) > s.maxBytes) := by
              intro hgt
              exact hguard ⟨hgt, hcc⟩
            rw [List.drop_zero, ← hsum]
            exact Or.inl (by omega)

/-- `evictLoop` with its natural fuel satisfies the loop characterization. -/
theorem evictLoop_spec (s : CacheState) (size : Nat)
    (hsum : s.totalBytes = sumSizes s.cache) :
    ∃ n, n ≤ s.cache.length ∧
      evictLoop s size =
        { s with cache := s.cache.drop n
                 totalBytes := sumSizes (s.cache.drop n)
                 closed := s.closed ++
                   (s.cache.take n).map (fun p => p.2.bitmap.id) } ∧
      (∀ m, m < n → sumSizes (s.cache.drop m) + (size : Int) > s.maxBytes) ∧
      (sumSizes (s.cache.drop n) + (size : Int) ≤ s.maxBytes ∨
        n = s.cache.length) :=
  evictLoopFuel_spec s.cache.length s size (Nat.le_refl _) hsum

/-! ### Helper lemmas for the master invariant -/

theorem sumSizes_append (a b : List (String × CacheEntry)) :
    sumSizes (a ++ b) = sumSizes a + sumSizes b := by
  simp [sumSizes]

theorem sumSizes_mapDelete (m : List (String × CacheEntry)) (k : String) (e : CacheEntry)
    (h : mapGet m k = some e) :
    sumSizes (mapDelete m k) = sumSizes m - (e.size : Int) := by
  induction m with
  | nil => simp [mapGet] at h
  | cons p rest ih =>
      obtain ⟨k', v'⟩ := p
      rw [mapDelete_cons]
      by_cases h2 : k' = k
      · rw [if_pos h2]
        subst h2
        have hv : v' = e := by
          simpa [mapGet] using h
        subst hv
        rw [sumSizes_cons]
        ring
      · rw [if_neg h2]
        simp only [mapGet, if_neg h2] at h
        rw [sumSizes_cons, sumSizes_cons, ih h]
        ring

theorem mapGet_none_of_sublist {κ α : Type} [DecidableEq κ]
    {m' m : List (κ × α)} (h : m'.Sublist m) (k : κ)
    (hn : mapGet m k = none) : mapGet m' k = none := by
  rw [mapGet_eq_none_iff] at hn ⊢
  intro hk
  exact hn ((h.map Prod.fst).subset hk)

theorem nodup_keys_mapDelete {κ α : Type} [DecidableEq κ] (m : List (κ × α)) (k : κ)
    (h : (keysOf m).Nodup) : (keysOf (mapDelete m k)).Nodup :=
  ((List.eraseP_sublist m).map Prod.fst).nodup h

theorem keysOf_cons {κ α : Type} (a : κ) (b : α) (m : List (κ × α)) :
    keysOf ((a, b) :: m) = a :: keysOf m := rfl

theorem keysOf_mapSet_subset {κ α : Type} [DecidableEq κ] (m : List (κ × α)) (k : κ)
    (v : α) : ∀ x ∈ keysOf (mapSet m k v), x ∈ keysOf m ∨ x = k := by
  induction m with
  | nil =>
      intro x hx
      rw [show mapSet ([] : List (κ × α)) k v = [(k, v)] from rfl, keysOf_cons] at hx
      rcases List.mem_cons.mp hx with h | h
      · exact Or.inr h
      · simp [keysOf] at h
  | cons p rest ih =>
      obtain ⟨k', v'⟩ := p
      intro x hx
      by_cases h2 : k' = k
      · subst h2
        rw [show mapSet ((k', v') :: rest) k' v = (k', v) :: rest by simp [mapSet],
          keysOf_cons] at hx
        rw [keysOf_cons]
        rcases List.mem_cons.mp hx with h | h
        · exact Or.inl (List.mem_cons.mpr (Or.inl h))
        · exact Or.inl (List.mem_cons.mpr (Or.inr h))
      · rw [show mapSet ((k', v') :: rest) k v = (k', v') :: mapSet rest k v by
          simp [mapSet, h2], keysOf_cons] at hx
        rw [keysOf_cons]
        rcases List.mem_cons.mp hx with h | h
        · exact Or.inl (List.mem_cons.mpr (Or.inl h))
        · rcases ih x h with h3 | h3
          · exact Or.inl (List.mem_cons.mpr (Or.inr h3))
          · exact Or.inr h3

theorem nodup_keys_mapSet {κ α : Type} [DecidableEq κ] (m : List (κ × α)) (k : κ) (v : α)
    (h : (keysOf m).Nodup) : (keysOf (mapSet m k v)).Nodup := by
  induction m with
  | nil => simp [mapSet, keysOf]
  | cons p rest ih =>
      obtain ⟨k', v'⟩ := p
      rw [keysOf_cons, List.nodup_cons] at h
      by_cases h2 : k' = k
      · subst h2
        rw [show mapSet ((k', v') :: rest) k' v = (k', v) :: rest by simp [mapSet],
          keysOf_cons, List.nodup_cons]
        exact h
      · rw [show mapSet ((k', v') :: rest) k v = (k', v') :: mapSet rest k v by
          simp [mapSet, h2], keysOf_cons, List.nodup_cons]
        refine ⟨?_, ih h.2⟩
        intro hmem
        rcases keysOf_mapSet_subset rest k v k' hmem with h3 | h3
        · exact h.1 h3
        · exact h2 h3

theorem nodup_keys_append_single {κ α : Type} [DecidableEq κ] (m : List (κ × α))
    (k : κ) (v : α) (h : (keysOf m).Nodup) (hn : mapGet m k = none) :
    (keysOf (m ++ [(k, v)])).Nodup := by
  have : keysOf (m ++ [(k, v)]) = keysOf m ++ [k] := by
    simp [keysOf]
  rw [this, List.nodup_append]
  refine ⟨h, List.nodup_singleton k, ?_⟩
  intro a ha hb
  rw [List.mem_singleton] at hb
  subst hb
  exact (mapGet_eq_none_iff m a).mp hn ha

theorem filter_length_eraseIdx {α : Type} (l : List α) (i : Nat) (a : α) (p : α → Bool)
    (h : l.get? i = some a) (hpa : p a = true) :
    ((l.eraseIdx i).filter p).length + 1 = (l.filter p).length := by
  induction l generalizing i with
  | nil => simp at h
  | cons b rest ih =>
      cases i with
      | zero =>
          simp only [List.get?] at h
          injection h with h
          subst h
          rw [List.eraseIdx_cons_zero, List.filter_cons_of_pos hpa]
          rfl
      | succ i' =>
          simp only [List.get?] at h
          rw [List.eraseIdx_cons_succ]
          by_cases hb : p b
          · rw [List.filter_cons_of_pos hb, List.filter_cons_of_pos hb]
            simp only [List.length_cons]
            rw [← ih i' h]
          · rw [List.filter_cons_of_neg hb, List.filter_cons_of_neg hb]
            exact ih i' h

theorem filter_length_pos_of_get {α : Type} (l : List α) (i : Nat) (a : α) (p : α → Bool)
    (h : l.get? i = some a) (hpa : p a = true) : 1 ≤ (l.filter p).length := by
  have hmem : a ∈ l := List.get?_mem h
  have : a ∈ l.filter p := List.mem_filter.mpr ⟨hmem, hpa⟩
  have := List.length_pos.mpr (List.ne_nil_of_mem this)
  omega

/-! ### The master invariant and its preservation -/

/-- Invariant maintained by every operation of the cache, provided
`invalidate` is only issued for keys with no in-flight request: the
configured constants, the accounting identity `totalBytes = Σ size`, the
budget bound (modulo the single-oversized-entry exception), key
uniqueness, the per-key coalescing bound (at most one in-flight request
per key), and the fact that an in-flight key is pending and uncached. -/
def Inv (s : CacheState) : Prop :=
  s.maxBytes = 50 * 1024 * 1024 ∧
  s.maxConcurrent = 6 ∧
  s.totalBytes = sumSizes s.cache ∧
  (s.totalBytes ≤ s.maxBytes ∨
    ∃ k e, s.cache = [(k, e)] ∧ (e.size : Int) > s.maxBytes) ∧
  (keysOf s.cache).Nodup ∧
  (keysOf s.pending).Nodup ∧
  (∀ k, inflightCount s k ≤ 1) ∧
  (∀ k, 1 ≤ inflightCount s k →
    (mapGet s.pending k).isSome = true ∧ mapGet s.cache k = none)

theorem Inv_initState : Inv initState := by
  refine ⟨rfl, rfl, rfl, Or.inl (by norm_num [initState]), ?_, ?_, ?_, ?_⟩
  · exact List.nodup_nil
  · exact List.nodup_nil
  · intro k
    simp [inflightCount, initState]
  · intro k hk
    simp [inflightCount, initState] at hk

theorem touch_eff (s : CacheState) (k : String) :
    (touch s k).pending = s.pending ∧ (touch s k).queue = s.queue ∧
    (touch s k).active = s.active ∧ (touch s k).totalBytes = s.totalBytes ∧
    (touch s k).maxBytes = s.maxBytes ∧
    (touch s k).maxConcurrent = s.maxConcurrent ∧
    (touch s k).promises = s.promises ∧
    (touch s k).nextPromise = s.nextPromise ∧
    (touch s k).closed = s.closed ∧ (touch s k).nextBitmap = s.nextBitmap := by
  unfold touch
  cases mapGet s.cache k <;>
    exact ⟨rfl, rfl, rfl, rfl, rfl, rfl, rfl, rfl, rfl, rfl⟩

theorem touch_of_none (s : CacheState) (k : String)
    (h : mapGet s.cache k = none) : touch s k = s := by
  unfold touch
  rw [h]

theorem touch_cache_of_some (s : CacheState) (k : String) (e : CacheEntry)
    (h : mapGet s.cache k = some e) (hnd : (keysOf s.cache).Nodup) :
    (touch s k).cache = mapDelete s.cache k ++ [(k, e)] := by
  unfold touch
  rw [h]
  have := mapSet_of_mapGet_none (mapDelete s.cache k) k e
    (mapGet_mapDelete_self_of_nodup s.cache k hnd)
  exact this

theorem mapGet_singleton_ne {κ α : Type} [DecidableEq κ] (k k' : κ) (v : α)
    (h : k ≠ k') : mapGet [(k, v)] k' = none := by
  simp [mapGet, h]

theorem inflightCount_touch (s : CacheState) (k k' : String) :
    inflightCount (touch s k) k' = inflightCount s k' := by
  unfold inflightCount
  rw [(touch_eff s k).2.1, (touch_eff s k).2.2.1]

/-- Recency touches preserve the invariant. -/
theorem Inv_touch (s : CacheState) (k : String) (hInv : Inv s) :
    Inv (touch s k) := by
  obtain ⟨hmb, hmc, hsum, hbound, hndc, hndp, hcnt, hpend⟩ := hInv
  cases he : mapGet s.cache k with
  | none => rw [touch_of_none s k he]; exact ⟨hmb, hmc, hsum, hbound, hndc, hndp, hcnt, hpend⟩
  | some e =>
      obtain ⟨e1, e2, e3, e4, e5, e6, e7, e8, e9, e10⟩ := touch_eff s k
      have hcache := touch_cache_of_some s k e he hndc
      have hsingle : sumSizes [(k, e)] = (e.size : Int) := by
        simp [sumSizes]
      refine ⟨?_, ?_, ?_, ?_, ?_, ?_, ?_, ?_⟩
      · rw [e5]; exact hmb
      · rw [e6]; exact hmc
      · rw [e4, hcache, sumSizes_append, sumSizes_mapDelete s.cache k e he,
          hsingle, hsum]
        ring
      · rcases hbound with hb | ⟨k1, e1', hc1, hsz⟩
        · exact Or.inl (by rw [e4, e5]; exact hb)
        · rw [hc1] at he
          by_cases hk : k1 = k
          · subst hk
            have hee : e = e1' := by
              simpa [mapGet] using he.symm
            subst hee
            refine Or.inr ⟨k1, e, ?_, by rw [e5]; exact hsz⟩
            rw [hcache, hc1, mapDelete_cons, if_pos rfl]
            rfl
          · rw [mapGet_singleton_ne k1 k e1' hk] at he
            exact absurd he (by simp)
      · rw [hcache]
        exact nodup_keys_append_single (mapDelete s.cache k) k e
          (nodup_keys_mapDelete s.cache k hndc)
          (mapGet_mapDelete_self_of_nodup s.cache k hndc)
      · rw [e1]; exact hndp
      · intro k'
        rw [inflightCount_touch]
        exact hcnt k'
      · intro k' h1
        rw [inflightCount_touch] at h1
        obtain ⟨hp, hcnone⟩ := hpend k' h1
        refine ⟨by rw [e1]; exact hp, ?_⟩
        by_cases hk : k' = k
        · subst hk
          rw [he] at hcnone
          exact absurd hcnone (by simp)
        · rw [hcache, mapGet_append_none _ _ _
            (by rw [mapGet_mapDelete_ne s.cache k k' hk]; exact hcnone)]
          exact mapGet_singleton_ne k k' e (Ne.symm hk)

theorem getSync_fst (s : CacheState) (k : String) : (getSync s k).1 = touch s k := by
  unfold getSync
  cases he : mapGet s.cache k with
  | none => exact (touch_of_none s k he).symm
  | some e => rfl

theorem get_fst_hit (s : CacheState) (k : String) (f : File) (e : CacheEntry)
    (he : mapGet s.cache k = some e) : (get s k f).1 = touch s k := by
  unfold get
  rw [he]

theorem get_fst_joined (s : CacheState) (k : String) (f : File) (p : Nat)
    (he : mapGet s.cache k = none) (hp : mapGet s.pending k = some p) :
    (get s k f).1 = s := by
  unfold get
  rw [he]
  dsimp only
  rw [hp]

theorem get_fst_queued (s : CacheState) (k : String) (f : File)
    (he : mapGet s.cache k = none) (hp : mapGet s.pending k = none) :
    (get s k f).1 = processQueue
      { s with promises := s.promises ++ [(s.nextPromise, PromiseState.pending)]
               nextPromise := s.nextPromise + 1
               queue := s.queue ++ [QueuedLoad.mk k f s.nextPromise]
               pending := mapSet s.pending k s.nextPromise } := by
  unfold get
  rw [he]
  dsimp only
  rw [hp]

theorem filter_singleton_length_pos {α : Type} (p : α → Bool) (a : α)
    (h : p a = true) : (List.filter p [a]).length = 1 := by
  simp [h]

theorem filter_singleton_length_neg {α : Type} (p : α → Bool) (a : α)
    (h : p a = false) : (List.filter p [a]).length = 0 := by
  simp [h]

/-- `get` preserves the invariant. -/
theorem Inv_get (s : CacheState) (k : String) (f : File) (hInv : Inv s) :
    Inv (get s k f).1 := by
  obtain ⟨hmb, hmc, hsum, hbound, hndc, hndp, hcnt, hpend⟩ := hInv
  unfold get
  cases he : mapGet s.cache k with
  | some e =>
      exact Inv_touch s k ⟨hmb, hmc, hsum, hbound, hndc, hndp, hcnt, hpend⟩
  | none =>
      cases hp : mapGet s.pending k with
      | some pl =>
          exact ⟨hmb, hmc, hsum, hbound, hndc, hndp, hcnt, hpend⟩
      | none =>
          have hk0 : inflightCount s k = 0 := by
            by_contra hne
            have := (hpend k (by omega)).1
            rw [hp] at this
            simp at this
          refine ⟨?_, ?_, ?_, ?_, ?_, ?_, ?_, ?_⟩
          · rw [processQueue_maxBytes]; exact hmb
          · rw [processQueue_maxConcurrent]; exact hmc
          · rw [processQueue_totalBytes, processQueue_cache]; exact hsum
          · rcases hbound with hb | ⟨k1, e1', hc1, hsz⟩
            · exact Or.inl (by rw [processQueue_totalBytes, processQueue_maxBytes]; exact hb)
            · refine Or.inr ⟨k1, e1', ?_, ?_⟩
              · rw [processQueue_cache]; exact hc1
              · rw [processQueue_maxBytes]; exact hsz
          · rw [processQueue_cache]; exact hndc
          · rw [processQueue_pending]
            exact nodup_keys_mapSet s.pending k s.nextPromise hndp
          · intro k'
            rw [processQueue_inflight]
            unfold inflightCount
            dsimp only
            rw [List.filter_append, List.length_append]
            by_cases hk : k = k'
            · subst hk
              have h0 : inflightCount s k = 0 := hk0
              unfold inflightCount at h0
              rw [filter_singleton_length_pos _ _ (by simp)]
              omega
            · have h1 : inflightCount s k' ≤ 1 := hcnt k'
              unfold inflightCount at h1
              rw [filter_singleton_length_neg _ _ (by simp [hk])]
              omega
          · intro k' h1
            rw [processQueue_inflight] at h1
            rw [processQueue_pending, processQueue_cache]
            by_cases hk : k' = k
            · subst hk
              exact ⟨by rw [mapGet_mapSet_self]; rfl, he⟩
            · unfold inflightCount at h1
              dsimp only at h1
              rw [List.filter_append, List.length_append,
                filter_singleton_length_neg _ _
                  (by simp; intro hcontra; exact hk hcontra.symm)] at h1
              have h2 : 1 ≤ inflightCount s k' := by
                unfold inflightCount
                omega
              obtain ⟨hp2, hc2⟩ := hpend k' h2
              exact ⟨by rw [mapGet_mapSet_ne s.pending k k' s.nextPromise hk]; exact hp2, hc2⟩

/-- Draining the queue preserves the invariant. -/
theorem Inv_processQueue (s : CacheState) (hInv : Inv s) : Inv (processQueue s) := by
  obtain ⟨hmb, hmc, hsum, hbound, hndc, hndp, hcnt, hpend⟩ := hInv
  refine ⟨?_, ?_, ?_, ?_, ?_, ?_, ?_, ?_⟩
  · rw [processQueue_maxBytes]; exact hmb
  · rw [processQueue_maxConcurrent]; exact hmc
  · rw [processQueue_totalBytes, processQueue_cache]; exact hsum
  · rcases hbound with hb | ⟨k1, e1, hc1, hsz⟩
    · exact Or.inl (by rw [processQueue_totalBytes, processQueue_maxBytes]; exact hb)
    · exact Or.inr ⟨k1, e1, by rw [processQueue_cache]; exact hc1,
        by rw [processQueue_maxBytes]; exact hsz⟩
  · rw [processQueue_cache]; exact hndc
  · rw [processQueue_pending]; exact hndp
  · intro k
    rw [processQueue_inflight]
    exact hcnt k
  · intro k h1
    rw [processQueue_inflight] at h1
    rw [processQueue_pending, processQueue_cache]
    exact hpend k h1

/-- Unfolding of `settleActive` on a failed decode. -/
theorem settleActive_err (s : CacheState) (i : Nat) (item : ActiveLoad)
    (hi : s.active.get? i = some item) (hout : item.file.outcome = .err) :
    settleActive s i = processQueue
      { s with promises := mapSet s.promises item.promise .rejected
               active := s.active.eraseIdx i
               pending := mapDelete s.pending item.volumeUuid } := by
  unfold settleActive
  rw [hi]
  dsimp only
  rw [hout]

/-- Unfolding of `settleActive` on a successful decode of dimensions
`w × h`. -/
theorem settleActive_ok (s : CacheState) (i : Nat) (item : ActiveLoad) (w h : Nat)
    (hi : s.active.get? i = some item) (hout : item.file.outcome = .ok w h) :
    settleActive s i = processQueue
      { (evictLoop { s with nextBitmap := s.nextBitmap + 1 } (w * h * 4)) with
        cache := mapSet
          (evictLoop { s with nextBitmap := s.nextBitmap + 1 } (w * h * 4)).cache
          item.volumeUuid
          ⟨⟨s.nextBitmap, w, h⟩, w, h, w * h * 4⟩
        totalBytes :=
          (evictLoop { s with nextBitmap := s.nextBitmap + 1 } (w * h * 4)).totalBytes +
            ((w * h * 4 : Nat) : Int)
        promises := mapSet
          (evictLoop { s with nextBitmap := s.nextBitmap + 1 } (w * h * 4)).promises
          item.promise (.resolved ⟨⟨s.nextBitmap, w, h⟩, w, h, w * h * 4⟩)
        active :=
          (evictLoop { s with nextBitmap := s.nextBitmap + 1 } (w * h * 4)).active.eraseIdx i
        pending := mapDelete
          (evictLoop { s with nextBitmap := s.nextBitmap + 1 } (w * h * 4)).pending
          item.volumeUuid } := by
  unfold settleActive loadComplete
  rw [hi]
  dsimp only
  rw [hout]

/-- Settlement of an active decode preserves the invariant. -/
theorem Inv_settle (s : CacheState) (i : Nat) (hInv : Inv s) :
    Inv (settleActive s i) := by
  obtain ⟨hmb, hmc, hsum, hbound, hndc, hndp, hcnt, hpend⟩ := hInv
  cases hi : s.active.get? i with
  | none =>
      unfold settleActive
      rw [hi]
      exact ⟨hmb, hmc, hsum, hbound, hndc, hndp, hcnt, hpend⟩
  | some item =>
      have hin : 1 ≤ inflightCount s item.volumeUuid := by
        unfold inflightCount
        have := filter_length_pos_of_get s.active i item
          (fun a => a.volumeUuid == item.volumeUuid) hi (by simp)
        omega
      obtain ⟨hpd, hcn⟩ := hpend item.volumeUuid hin
      have herase : (List.filter (fun a => a.volumeUuid == item.volumeUuid)
            (s.active.eraseIdx i)).length + 1 =
          (List.filter (fun a => a.volumeUuid == item.volumeUuid) s.active).length :=
        filter_length_eraseIdx s.active i item _ hi (by simp)
      have hsubf : ∀ p : ActiveLoad → Bool,
          ((s.active.eraseIdx i).filter p).length ≤ (s.active.filter p).length :=
        fun p => ((List.eraseIdx_sublist s.active i).filter p).length_le
      have hkz : inflightCount s item.volumeUuid ≤ 1 := hcnt item.volumeUuid
      cases hout : item.file.outcome with
      | err =>
          rw [settleActive_err s i item hi hout]
          apply Inv_processQueue
          refine ⟨hmb, hmc, hsum, hbound, hndc, ?_, ?_, ?_⟩
          · exact nodup_keys_mapDelete s.pending item.volumeUuid hndp
          · intro k'
            unfold inflightCount
            dsimp only
            have h1 := hcnt k'
            unfold inflightCount at h1
            have := hsubf (fun a => a.volumeUuid == k')
            omega
          · intro k' h1
            unfold inflightCount at h1
            dsimp only at h1
            by_cases hk : k' = item.volumeUuid
            · exfalso
              subst hk
              unfold inflightCount at hkz
              omega
            · have h2 : 1 ≤ inflightCount s k' := by
                unfold inflightCount
                have := hsubf (fun a => a.volumeUuid == k')
                omega
              obtain ⟨hp2, hc2⟩ := hpend k' h2
              refine ⟨?_, hc2⟩
              dsimp only
              rw [mapGet_mapDelete_ne s.pending item.volumeUuid k' hk]
              exact hp2
      | ok w h =>
          rw [settleActive_ok s i item w h hi hout]
          apply Inv_processQueue
          have hsum1 : ({ s with nextBitmap := s.nextBitmap + 1 } : CacheState).totalBytes =
              sumSizes ({ s with nextBitmap := s.nextBitmap + 1 } : CacheState).cache := hsum
          obtain ⟨n, hn, heq2, hmin, hexit⟩ :=
            evictLoop_spec { s with nextBitmap := s.nextBitmap + 1 } (w * h * 4) hsum1
          have hc2 : (evictLoop { s with nextBitmap := s.nextBitmap + 1 } (w * h * 4)).cache =
              s.cache.drop n := by rw [heq2]
          have ht2 : (evictLoop { s with nextBitmap := s.nextBitmap + 1 } (w * h * 4)).totalBytes =
              sumSizes (s.cache.drop n) := by rw [heq2]
          have hp2 : (evictLoop { s with nextBitmap := s.nextBitmap + 1 } (w * h * 4)).pending =
              s.pending := by rw [heq2]
          have hq2 : (evictLoop { s with nextBitmap := s.nextBitmap + 1 } (w * h * 4)).queue =
              s.queue := by rw [heq2]
          have ha2 : (evictLoop { s with nextBitmap := s.nextBitmap + 1 } (w * h * 4)).active =
              s.active := by rw [heq2]
          have hm2 : (evictLoop { s with nextBitmap := s.nextBitmap + 1 } (w * h * 4)).maxBytes =
              s.maxBytes := by rw [heq2]
          have hmc2 : (evictLoop { s with nextBitmap := s.nextBitmap + 1 } (w * h * 4)).maxConcurrent =
              s.maxConcurrent := by rw [heq2]
          have hkD : mapGet (s.cache.drop n) item.volumeUuid = none :=
            mapGet_none_of_sublist (List.drop_sublist n s.cache) item.volumeUuid hcn
          have hset : mapSet (s.cache.drop n) item.volumeUuid
              (⟨⟨s.nextBitmap, w, h⟩, w, h, w * h * 4⟩ : CacheEntry) =
              s.cache.drop n ++ [(item.volumeUuid, ⟨⟨s.nextBitmap, w, h⟩, w, h, w * h * 4⟩)] :=
            mapSet_of_mapGet_none _ _ _ hkD
          have hsingle : sumSizes [(item.volumeUuid,
              (⟨⟨s.nextBitmap, w, h⟩, w, h, w * h * 4⟩ : CacheEntry))] =
              ((w * h * 4 : Nat) : Int) := by
            simp [sumSizes]
          have hndD : (keysOf (s.cache.drop n)).Nodup :=
            ((List.drop_sublist n s.cache).map Prod.fst).nodup hndc
          refine ⟨?_, ?_, ?_, ?_, ?_, ?_, ?_, ?_⟩
          · dsimp only; rw [hm2]; exact hmb
          · dsimp only; rw [hmc2]; exact hmc
          · dsimp only
            rw [ht2, hc2, hset, sumSizes_append, hsingle]
          · dsimp only
            rcases hexit with hle | hlen
            · refine Or.inl ?_
              rw [ht2, hm2]
              exact hle
            · have hD : s.cache.drop n = [] := by
                have : n = s.cache.length := hlen
                rw [this, List.drop_length]
              by_cases hsz : ((w * h * 4 : Nat) : Int) ≤ s.maxBytes
              · refine Or.inl ?_
                rw [ht2, hm2, hD, sumSizes_nil]
                omega
              · refine Or.inr ⟨item.volumeUuid, ⟨⟨s.nextBitmap, w, h⟩, w, h, w * h * 4⟩, ?_, ?_⟩
                · rw [hc2, hset, hD]
                  rfl
                · rw [hm2]
                  dsimp only
                  omega
          · dsimp only
            rw [hc2, hset]
            exact nodup_keys_append_single _ _ _ hndD hkD
          · dsimp only
            rw [hp2]
            exact nodup_keys_mapDelete s.pending item.volumeUuid hndp
          · intro k'
            unfold inflightCount
            dsimp only
            rw [hq2, ha2]
            have h1 := hcnt k'
            unfold inflightCount at h1
            have := hsubf (fun a => a.volumeUuid == k')
            omega
          · intro k' h1
            unfold inflightCount at h1
            dsimp only at h1
            rw [hq2, ha2] at h1
            by_cases hk : k' = item.volumeUuid
            · exfalso
              subst hk
              unfold inflightCount at hkz
              omega
            · have h2 : 1 ≤ inflightCount s k' := by
                unfold inflightCount
                have := hsubf (fun a => a.volumeUuid == k')
                omega
              obtain ⟨hp3, hc3⟩ := hpend k' h2
              refine ⟨?_, ?_⟩
              · dsimp only
                rw [hp2, mapGet_mapDelete_ne s.pending item.volumeUuid k' hk]
                exact hp3
              · dsimp only
                rw [hc2, hset, mapGet_append_none _ _ _
                  (mapGet_none_of_sublist (List.drop_sublist n s.cache) k' hc3)]
                exact mapGet_singleton_ne item.volumeUuid k' _ (Ne.symm hk)

/-- Unfolding of `invalidate` when the key is stored. -/
theorem invalidate_some (s : CacheState) (k : String) (e : CacheEntry)
    (he : mapGet s.cache k = some e) :
    invalidate s k =
      { s with closed := s.closed ++ [e.bitmap.id]
               totalBytes := s.totalBytes - (e.size : Int)
               cache := mapDelete s.cache k
               pending := mapDelete s.pending k
               queue := s.queue.filter (fun item => item.volumeUuid != k) } := by
  unfold invalidate
  rw [he]

/-- Unfolding of `invalidate` when the key is not stored. -/
theorem invalidate_none (s : CacheState) (k : String)
    (he : mapGet s.cache k = none) :
    invalidate s k =
      { s with pending := mapDelete s.pending k
               queue := s.queue.filter (fun item => item.volumeUuid != k) } := by
  unfold invalidate
  rw [he]

/-- `invalidate` on a key with no in-flight request preserves the
invariant. -/
theorem Inv_invalidate (s : CacheState) (k : String) (hInv : Inv s)
    (hk0 : inflightCount s k = 0) : Inv (invalidate s k) := by
  obtain ⟨hmb, hmc, hsum, hbound, hndc, hndp, hcnt, hpend⟩ := hInv
  have hqsub : ∀ p : QueuedLoad → Bool,
      ((s.queue.filter (fun item => item.volumeUuid != k)).filter p).length ≤
        (s.queue.filter p).length :=
    fun p => ((List.filter_sublist s.queue).filter p).length_le
  cases he : mapGet s.cache k with
  | some e =>
      rw [invalidate_some s k e he]
      refine ⟨hmb, hmc, ?_, ?_, ?_, ?_, ?_, ?_⟩
      · dsimp only
        rw [sumSizes_mapDelete s.cache k e he, hsum]
      · rcases hbound with hb | ⟨k1, e1, hc1, hsz⟩
        · refine Or.inl ?_
          dsimp only
          omega
        · by_cases hk1 : k1 = k
          · subst hk1
            have hee : e = e1 := by
              rw [hc1] at he
              simpa [mapGet] using he.symm
            subst hee
            have ht : s.totalBytes = (e.size : Int) := by
              rw [hsum, hc1]
              simp [sumSizes]
            refine Or.inl ?_
            dsimp only
            rw [ht, hmb]
            omega
          · rw [hc1, mapGet_singleton_ne k1 k e1 hk1] at he
            exact absurd he (by simp)
      · exact nodup_keys_mapDelete s.cache k hndc
      · exact nodup_keys_mapDelete s.pending k hndp
      · intro k'
        have h1 := hcnt k'
        unfold inflightCount at h1 ⊢
        dsimp only
        have := hqsub (fun q => q.volumeUuid == k')
        omega
      · intro k' h1
        unfold inflightCount at h1
        dsimp only at h1
        by_cases hk' : k' = k
        · exfalso
          subst hk'
          unfold inflightCount at hk0
          have := hqsub (fun q => q.volumeUuid == k')
          omega
        · have h2 : 1 ≤ inflightCount s k' := by
            unfold inflightCount
            have := hqsub (fun q => q.volumeUuid == k')
            omega
          obtain ⟨hp2, hc2⟩ := hpend k' h2
          refine ⟨?_, ?_⟩
          · dsimp only
            rw [mapGet_mapDelete_ne s.pending k k' hk']
            exact hp2
          · dsimp only
            rw [mapGet_mapDelete_ne s.cache k k' hk']
            exact hc2
  | none =>
      rw [invalidate_none s k he]
      refine ⟨hmb, hmc, hsum, ?_, hndc, ?_, ?_, ?_⟩
      · rcases hbound with hb | ⟨k1, e1, hc1, hsz⟩
        · exact Or.inl hb
        · exact Or.inr ⟨k1, e1, hc1, hsz⟩
      · exact nodup_keys_mapDelete s.pending k hndp
      · intro k'
        have h1 := hcnt k'
        unfold inflightCount at h1 ⊢
        dsimp only
        have := hqsub (fun q => q.volumeUuid == k')
        omega
      · intro k' h1
        unfold inflightCount at h1
        dsimp only at h1
        by_cases hk' : k' = k
        · exfalso
          subst hk'
          unfold inflightCount at hk0
          have := hqsub (fun q => q.volumeUuid == k')
          omega
        · have h2 : 1 ≤ inflightCount s k' := by
            unfold inflightCount
            have := hqsub (fun q => q.volumeUuid == k')
            omega
          obtain ⟨hp2, hc2⟩ := hpend k' h2
          refine ⟨?_, hc2⟩
          dsimp only
          rw [mapGet_mapDelete_ne s.pending k k' hk']
          exact hp2

/-- `clear` preserves the invariant. -/
theorem Inv_clear (s : CacheState) (hInv : Inv s) : Inv (clear s) := by
  obtain ⟨hmb, hmc, hsum, hbound, hndc, hndp, hcnt, hpend⟩ := hInv
  refine ⟨hmb, hmc, rfl, ?_, ?_, hndp, ?_, ?_⟩
  · refine Or.inl ?_
    have h1 : (clear s).maxBytes = s.maxBytes := rfl
    have h2 : (clear s).totalBytes = 0 := rfl
    rw [h1, h2, hmb]
    norm_num
  · exact List.nodup_nil
  · intro k'
    exact hcnt k'
  · intro k' h1
    have h2 : 1 ≤ inflightCount s k' := h1
    exact ⟨(hpend k' h2).1, rfl⟩

/-- One step of the system preserves the invariant, assuming the step is
an `invalidate` only for keys with no in-flight request. -/
theorem Inv_step (s : CacheState) (e : Event) (hInv : Inv s)
    (hok : (match e with
            | .invalidate k => inflightCount s k == 0
            | _ => true) = true) :
    Inv (step s e) := by
  cases e with
  | get k f => exact Inv_get s k f hInv
  | settle i => exact Inv_settle s i hInv
  | invalidate k =>
      have h0 : inflightCount s k = 0 := by simpa using hok
      exact Inv_invalidate s k hInv h0
  | clear => exact Inv_clear s hInv
  | getSync k =>
      show Inv (getSync s k).1
      rw [getSync_fst]
      exact Inv_touch s k hInv

/-- The invariant holds along every good trace. -/
theorem Inv_run : ∀ (es : List Event) (s : CacheState), Inv s →
    goodTrace s es = true → Inv (run s es) := by
  intro es
  induction es with
  | nil =>
      intro s h _
      exact h
  | cons e rest ih =>
      intro s h hg
      unfold goodTrace at hg
      rw [Bool.and_eq_true] at hg
      exact ih (step s e) (Inv_step s e h hg.1) hg.2

/-! ### Orphaned promises never settle -/

theorem evictLRU_fields (s : CacheState) :
    (evictLRU s).queue = s.queue ∧ (evictLRU s).active = s.active ∧
    (evictLRU s).promises = s.promises ∧
    (evictLRU s).nextPromise = s.nextPromise ∧
    (evictLRU s).pending = s.pending ∧ (evictLRU s).maxBytes = s.maxBytes ∧
    (evictLRU s).maxConcurrent = s.maxConcurrent ∧
    (evictLRU s).nextBitmap = s.nextBitmap := by
  cases hc : s.cache with
  | nil =>
      have hs : evictLRU s = s := by
        unfold evictLRU
        rw [hc]
      rw [hs]
      exact ⟨rfl, rfl, rfl, rfl, rfl, rfl, rfl, rfl⟩
  | cons p rest =>
      obtain ⟨k, e⟩ := p
      rw [evictLRU_cons s k e rest hc]
      exact ⟨rfl, rfl, rfl, rfl, rfl, rfl, rfl, rfl⟩

theorem evictLoopFuel_fields (fuel : Nat) : ∀ (s : CacheState) (size : Nat),
    (evictLoopFuel fuel s size).queue = s.queue ∧
    (evictLoopFuel fuel s size).active = s.active ∧
    (evictLoopFuel fuel s size).promises = s.promises ∧
    (evictLoopFuel fuel s size).nextPromise = s.nextPromise ∧
    (evictLoopFuel fuel s size).pending = s.pending ∧
    (evictLoopFuel fuel s size).maxBytes = s.maxBytes ∧
    (evictLoopFuel fuel s size).maxConcurrent = s.maxConcurrent ∧
    (evictLoopFuel fuel s size).nextBitmap = s.nextBitmap := by
  induction fuel with
  | zero =>
      intro s size
      exact ⟨rfl, rfl, rfl, rfl, rfl, rfl, rfl, rfl⟩
  | succ fuel ih =>
      intro s size
      rw [evictLoopFuel]
      by_cases hg : s.totalBytes + (size : Int) > s.maxBytes ∧ s.cache ≠ []
      · rw [if_pos hg]
        obtain ⟨i1, i2, i3, i4, i5, i6, i7, i8⟩ := ih (evictLRU s) size
        obtain ⟨j1, j2, j3, j4, j5, j6, j7, j8⟩ := evictLRU_fields s
        exact ⟨by rw [i1, j1], by rw [i2, j2], by rw [i3, j3], by rw [i4, j4],
          by rw [i5, j5], by rw [i6, j6], by rw [i7, j7], by rw [i8, j8]⟩
      · rw [if_neg hg]
        exact ⟨rfl, rfl, rfl, rfl, rfl, rfl, rfl, rfl⟩

theorem evictLoop_fields (s : CacheState) (size : Nat) :
    (evictLoop s size).queue = s.queue ∧ (evictLoop s size).active = s.active ∧
    (evictLoop s size).promises = s.promises ∧
    (evictLoop s size).nextPromise = s.nextPromise ∧
    (evictLoop s size).pending = s.pending ∧
    (evictLoop s size).maxBytes = s.maxBytes ∧
    (evictLoop s size).maxConcurrent = s.maxConcurrent ∧
    (evictLoop s size).nextBitmap = s.nextBitmap :=
  evictLoopFuel_fields s.cache.length s size

theorem processQueue_queue_subset (s : CacheState) :
    ∀ q ∈ (processQueue s).queue, q ∈ s.queue := by
  rw [processQueue_queue]
  intro q hq
  exact List.mem_of_mem_take hq

theorem processQueue_active_mem (s : CacheState) :
    ∀ a ∈ (processQueue s).active, a ∈ s.active ∨ ∃ q ∈ s.queue, a = toActive q := by
  rw [processQueue_active]
  intro a ha
  rcases List.mem_append.mp ha with h | h
  · exact Or.inl h
  · right
    obtain ⟨q, hq, hh⟩ := List.mem_map.mp h
    exact ⟨q, List.mem_of_mem_drop (List.mem_reverse.mp hq), hh.symm⟩

/-- A promise is orphaned when it is still pending but no queued or active
request holds its resolve/reject continuations (and its id has already
been allocated). -/
def Orphaned (s : CacheState) (pid : Nat) : Prop :=
  mapGet s.promises pid = some .pending ∧
  (∀ q ∈ s.queue, q.promise ≠ pid) ∧
  (∀ a ∈ s.active, a.promise ≠ pid) ∧
  pid < s.nextPromise

/-- No step of the system can settle an orphaned promise: nothing
references its continuations any more, and every later request gets a
fresh id. -/
theorem Orphaned_step (s : CacheState) (e : Event) (pid : Nat)
    (h : Orphaned s pid) : Orphaned (step s e) pid := by
  obtain ⟨hpp, hq, ha, hlt⟩ := h
  cases e with
  | get k f =>
      show Orphaned (get s k f).1 pid
      unfold get
      cases he : mapGet s.cache k with
      | some e =>
          obtain ⟨e1, e2, e3, e4, e5, e6, e7, e8, e9, e10⟩ := touch_eff s k
          exact ⟨by rw [e7]; exact hpp, by rw [e2]; exact hq,
            by rw [e3]; exact ha, by rw [e8]; exact hlt⟩
      | none =>
          cases hp : mapGet s.pending k with
          | some pl => exact ⟨hpp, hq, ha, hlt⟩
          | none =>
              refine ⟨?_, ?_, ?_, ?_⟩
              · rw [processQueue_promises]
                dsimp only
                exact mapGet_append_left _ _ _ _ hpp
              · intro q hqq
                have := processQueue_queue_subset _ q hqq
                dsimp only at this
                rcases List.mem_append.mp this with h1 | h1
                · exact hq q h1
                · rw [List.mem_singleton] at h1
                  subst h1
                  dsimp only
                  omega
              · intro a haa
                rcases processQueue_active_mem _ a haa with h1 | ⟨q2, hq2, hh⟩
                · dsimp only at h1
                  exact ha a h1
                · dsimp only at hq2
                  rcases List.mem_append.mp hq2 with h2 | h2
                  · subst hh
                    exact hq q2 h2
                  · rw [List.mem_singleton] at h2
                    subst h2
                    subst hh
                    dsimp only [toActive]
                    omega
              · rw [processQueue_nextPromise]
                dsimp only
                omega
  | settle i =>
      show Orphaned (settleActive s i) pid
      cases hi : s.active.get? i with
      | none =>
          unfold settleActive
          rw [hi]
          exact ⟨hpp, hq, ha, hlt⟩
      | some item =>
          have hitem : item.promise ≠ pid := ha item (List.get?_mem hi)
          have herasub : ∀ a ∈ s.active.eraseIdx i, a ∈ s.active :=
            fun a hh => List.mem_of_mem_eraseIdx hh
          cases hout : item.file.outcome with
          | err =>
              rw [settleActive_err s i item hi hout]
              refine ⟨?_, ?_, ?_, ?_⟩
              · rw [processQueue_promises]
                dsimp only
                rw [mapGet_mapSet_ne s.promises item.promise pid _ (Ne.symm hitem)]
                exact hpp
              · intro q hqq
                have := processQueue_queue_subset _ q hqq
                dsimp only at this
                exact hq q this
              · intro a haa
                rcases processQueue_active_mem _ a haa with h1 | ⟨q2, hq2, hh⟩
                · dsimp only at h1
                  exact ha a (herasub a h1)
                · dsimp only at hq2
                  subst hh
                  exact hq q2 hq2
              · rw [processQueue_nextPromise]
                dsimp only
                exact hlt
          | ok w hh =>
              rw [settleActive_ok s i item w hh hi hout]
              obtain ⟨f1, f2, f3, f4, f5, f6, f7, f8⟩ :=
                evictLoop_fields { s with nextBitmap := s.nextBitmap + 1 } (w * hh * 4)
              refine ⟨?_, ?_, ?_, ?_⟩
              · rw [processQueue_promises]
                dsimp only
                rw [f3]
                rw [mapGet_mapSet_ne _ item.promise pid _ (Ne.symm hitem)]
                exact hpp
              · intro q hqq
                have := processQueue_queue_subset _ q hqq
                dsimp only at this
                rw [f1] at this
                exact hq q this
              · intro a haa
                rcases processQueue_active_mem _ a haa with h1 | ⟨q2, hq2, hh2⟩
                · dsimp only at h1
                  rw [f2] at h1
                  exact ha a (herasub a h1)
                · dsimp only at hq2
                  rw [f1] at hq2
                  subst hh2
                  exact hq q2 hq2
              · rw [processQueue_nextPromise]
                dsimp only
                rw [f4]
                exact hlt
  | invalidate k =>
      show Orphaned (invalidate s k) pid
      cases he : mapGet s.cache k with
      | some e =>
          rw [invalidate_some s k e he]
          refine ⟨hpp, ?_, ha, hlt⟩
          intro q hqq
          dsimp only at hqq
          exact hq q (List.mem_of_mem_filter hqq)
      | none =>
          rw [invalidate_none s k he]
          refine ⟨hpp, ?_, ha, hlt⟩
          intro q hqq
          dsimp only at hqq
          exact hq q (List.mem_of_mem_filter hqq)
  | clear =>
      exact ⟨hpp, hq, ha, hlt⟩
  | getSync k =>
      show Orphaned (getSync s k).1 pid
      rw [getSync_fst]
      obtain ⟨e1, e2, e3, e4, e5, e6, e7, e8, e9, e10⟩ := touch_eff s k
      exact ⟨by rw [e7]; exact hpp, by rw [e2]; exact hq,
        by rw [e3]; exact ha, by rw [e8]; exact hlt⟩

/-- Orphaned promises stay orphaned forever: no future event sequence can
settle them. -/
theorem Orphaned_run : ∀ (es : List Event) (s : CacheState) (pid : Nat),
    Orphaned s pid → Orphaned (run s es) pid := by
  intro es
  induction es with
  | nil =>
      intro s pid h
      exact h
  | cons e rest ih =>
      intro s pid h
      exact ih (step s e) pid (Orphaned_step s e pid h)

/-! ### The concurrency ceiling, unconditionally -/

theorem step_active_le (s : CacheState) (e : Event)
    (h : s.active.length ≤ s.maxConcurrent) :
    (step s e).active.length ≤ (step s e).maxConcurrent ∧
    (step s e).maxConcurrent = s.maxConcurrent := by
  cases e with
  | get k f =>
      show ((get s k f).1).active.length ≤ ((get s k f).1).maxConcurrent ∧
        ((get s k f).1).maxConcurrent = s.maxConcurrent
      cases he : mapGet s.cache k with
      | some e =>
          rw [get_fst_hit s k f e he, (touch_eff s k).2.2.1,
            (touch_eff s k).2.2.2.2.2.1]
          exact ⟨h, rfl⟩
      | none =>
          cases hp : mapGet s.pending k with
          | some pl =>
              rw [get_fst_joined s k f pl he hp]
              exact ⟨h, rfl⟩
          | none =>
              rw [get_fst_queued s k f he hp, processQueue_maxConcurrent]
              refine ⟨?_, rfl⟩
              exact processQueue_active_le _ h
  | settle i =>
      show (settleActive s i).active.length ≤ (settleActive s i).maxConcurrent ∧
        (settleActive s i).maxConcurrent = s.maxConcurrent
      cases hi : s.active.get? i with
      | none =>
          have hs : settleActive s i = s := by
            unfold settleActive
            rw [hi]
          rw [hs]
          exact ⟨h, rfl⟩
      | some item =>
          have hera : (s.active.eraseIdx i).length ≤ s.active.length :=
            (List.eraseIdx_sublist s.active i).length_le
          cases hout : item.file.outcome with
          | err =>
              rw [settleActive_err s i item hi hout, processQueue_maxConcurrent]
              refine ⟨?_, rfl⟩
              apply processQueue_active_le
              dsimp only
              omega
          | ok w hh =>
              rw [settleActive_ok s i item w hh hi hout, processQueue_maxConcurrent]
              obtain ⟨f1, f2, f3, f4, f5, f6, f7, f8⟩ :=
                evictLoop_fields { s with nextBitmap := s.nextBitmap + 1 } (w * hh * 4)
              constructor
              · apply processQueue_active_le
                dsimp only
                rw [f2, f7]
                dsimp only
                omega
              · dsimp only
                rw [f7]
  | invalidate k =>
      show (invalidate s k).active.length ≤ (invalidate s k).maxConcurrent ∧
        (invalidate s k).maxConcurrent = s.maxConcurrent
      cases he : mapGet s.cache k with
      | some e =>
          rw [invalidate_some s k e he]
          exact ⟨h, rfl⟩
      | none =>
          rw [invalidate_none s k he]
          exact ⟨h, rfl⟩
  | clear => exact ⟨h, rfl⟩
  | getSync k =>
      show ((getSync s k).1).active.length ≤ ((getSync s k).1).maxConcurrent ∧
        ((getSync s k).1).maxConcurrent = s.maxConcurrent
      rw [getSync_fst, (touch_eff s k).2.2.1, (touch_eff s k).2.2.2.2.2.1]
      exact ⟨h, rfl⟩

theorem run_active_le : ∀ (es : List Event) (s : CacheState),
    s.active.length ≤ s.maxConcurrent →
    (run s es).active.length ≤ (run s es).maxConcurrent ∧
    (run s es).maxConcurrent = s.maxConcurrent := by
  intro es
  induction es with
  | nil =>
      intro s h
      exact ⟨h, rfl⟩
  | cons e rest ih =>
      intro s h
      obtain ⟨h1, h2⟩ := step_active_le s e h
      obtain ⟨h3, h4⟩ := ih (step s e) h1
      have hrun : run s (e :: rest) = run (step s e) rest := rfl
      rw [hrun]
      exact ⟨h3, by rw [h4, h2]⟩

/-- With every concurrency slot occupied, `get` starts no decode: the
active set is unchanged (a new request only joins the queue). -/
theorem get_active_full (s : CacheState) (k : String) (f : File)
    (hfull : s.active.length = s.maxConcurrent) :
    ((get s k f).1).active = s.active := by
  cases he : mapGet s.cache k with
  | some e =>
      rw [get_fst_hit s k f e he]
      exact (touch_eff s k).2.2.1
  | none =>
      cases hp : mapGet s.pending k with
      | some pl => rw [get_fst_joined s k f pl he hp]
      | none =>
          rw [get_fst_queued s k f he hp, processQueue_active]
          dsimp only
          have hsc : startCount { s with
              promises := s.promises ++ [(s.nextPromise, PromiseState.pending)]
              nextPromise := s.nextPromise + 1
              queue := s.queue ++ [QueuedLoad.mk k f s.nextPromise]
              pending := mapSet s.pending k s.nextPromise } = 0 := by
            unfold startCount
            dsimp only
            omega
          rw [hsc, Nat.sub_zero, List.drop_length, List.reverse_nil, List.map_nil,
            List.append_nil]

/-! ### Concrete inputs for scenarios -/

/-- A file that decodes to a `w × h` raster. -/
def fileOk (w h : Nat) : File := ⟨.ok w h⟩

/-- A file whose decode fails. -/
def fileErr : File := ⟨.err⟩

/-! ### Claims -/

/-- C1 (counterexample): the claim "for every key, at most one decode
operation for that key is in flight at any time" is false as stated:
after `get "a"`, `invalidate "a"` (which detaches the still-active decode
from the pending map), and a second `get "a"`, two decodes for `"a"` are
active simultaneously. -/
theorem c1_counterexample :
    inflightCount (run initState
      [Event.get "a" (fileOk 1 1), Event.invalidate "a",
        Event.get "a" (fileOk 1 1)]) "a" = 2 := by
  decide

/-- C1 (amended): provided `invalidate` is never issued for a key while a
request for that key is in flight, at most one decode per key is ever in
flight; and a `get` for a key that is pending and uncached returns the
identity-same pending promise, with no new decode request and no state
change — so N concurrent callers coalesce onto one decode whose single
entry they all receive. -/
theorem c1_coalescing :
    (∀ es : List Event, goodTrace initState es = true →
      ∀ k, inflightCount (run initState es) k ≤ 1) ∧
    (∀ (s : CacheState) (k : String) (f : File) (p : Nat),
      mapGet s.cache k = none → mapGet s.pending k = some p →
      get s k f = (s, GetResult.joined p)) := by
  constructor
  · intro es hg k
    exact (Inv_run es initState Inv_initState hg).2.2.2.2.2.2.1 k
  · intro s k f p hc hp
    unfold get
    rw [hc]
    dsimp only
    rw [hp]

/-- C1 witness: concrete coalescing — three `get`s (two for `"a"`) keep
`"a"`'s in-flight count at one, and a joining `get` returns the promise
created by the first call unchanged. -/
theorem c1_witness :
    (goodTrace initState [Event.get "a" (fileOk 1 1), Event.get "b" (fileOk 1 1),
        Event.get "a" (fileOk 1 1)] = true ∧
      inflightCount (run initState [Event.get "a" (fileOk 1 1),
        Event.get "b" (fileOk 1 1), Event.get "a" (fileOk 1 1)]) "a" ≤ 1) ∧
    (mapGet (run initState [Event.get "a" (fileOk 1 1)]).cache "a" = none ∧
      mapGet (run initState [Event.get "a" (fileOk 1 1)]).pending "a" = some 0 ∧
      get (run initState [Event.get "a" (fileOk 1 1)]) "a" (fileOk 1 1) =
        (run initState [Event.get "a" (fileOk 1 1)], GetResult.joined 0)) :=
  ⟨⟨by decide, c1_coalescing.1 _ (by decide) "a"⟩,
    by decide, by decide,
    c1_coalescing.2 _ "a" (fileOk 1 1) 0 (by decide) (by decide)⟩

/-- C2 (counterexample): the budget claim fails twice on the code.  (a) A
single decode of 4096×4096 (67 108 864 bytes > 50 MiB) is inserted after
the store empties, and `totalBytes` then exceeds `maxBytes` with the
operation long complete.  (b) When `invalidate` races an active decode, a
re-requested key is decoded twice and `load` re-inserts over the existing
entry with `Map.set` without subtracting the overwritten entry's size, so
`totalBytes` (2000) no longer equals the sum of stored sizes (1600). -/
theorem c2_counterexample :
    ((run initState [Event.get "a" (fileOk 4096 4096), Event.settle 0]).totalBytes >
      (run initState [Event.get "a" (fileOk 4096 4096), Event.settle 0]).maxBytes) ∧
    ((run initState [Event.get "a" (fileOk 10 10), Event.invalidate "a",
        Event.get "a" (fileOk 20 20), Event.settle 0, Event.settle 0]).totalBytes ≠
      sumSizes (run initState [Event.get "a" (fileOk 10 10), Event.invalidate "a",
        Event.get "a" (fileOk 20 20), Event.settle 0, Event.settle 0]).cache) := by
  constructor
  · decide
  · decide

/-- C2 (amended): provided `invalidate` is never issued for a key with an
in-flight request, after every operation completes `totalBytes` equals the
sum of `size` over all store entries, and it never exceeds `maxBytes`
except when the store consists of exactly one entry whose own size exceeds
the entire budget (the oversized insert performed after evicting
everything). -/
theorem c2_budget (es : List Event) (hg : goodTrace initState es = true) :
    (run initState es).totalBytes = sumSizes (run initState es).cache ∧
    ((run initState es).totalBytes ≤ (run initState es).maxBytes ∨
      ∃ k e, (run initState es).cache = [(k, e)] ∧
        (e.size : Int) > (run initState es).maxBytes) := by
  have h := Inv_run es initState Inv_initState hg
  exact ⟨h.2.2.1, h.2.2.2.1⟩

/-- C2 witness: a trace with a decode, a hit, an invalidation, and a clear
satisfies the budget invariant. -/
theorem c2_witness :
    goodTrace initState [Event.get "a" (fileOk 10 10), Event.settle 0,
      Event.getSync "a", Event.invalidate "a", Event.clear] = true ∧
    ((run initState [Event.get "a" (fileOk 10 10), Event.settle 0,
        Event.getSync "a", Event.invalidate "a", Event.clear]).totalBytes =
      sumSizes (run initState [Event.get "a" (fileOk 10 10), Event.settle 0,
        Event.getSync "a", Event.invalidate "a", Event.clear]).cache ∧
      ((run initState [Event.get "a" (fileOk 10 10), Event.settle 0,
          Event.getSync "a", Event.invalidate "a", Event.clear]).totalBytes ≤
        (run initState [Event.get "a" (fileOk 10 10), Event.settle 0,
          Event.getSync "a", Event.invalidate "a", Event.clear]).maxBytes ∨
        ∃ k e, (run initState [Event.get "a" (fileOk 10 10), Event.settle 0,
            Event.getSync "a", Event.invalidate "a", Event.clear]).cache = [(k, e)] ∧
          (e.size : Int) > (run initState [Event.get "a" (fileOk 10 10),
            Event.settle 0, Event.getSync "a", Event.invalidate "a",
            Event.clear]).maxBytes)) :=
  ⟨by decide, c2_budget _ (by decide)⟩

/-- C3: when a decode of size `s = w*h*4` settles for an uncached key, the
least-recently-used prefix of the store is evicted — each evicted entry's
bitmap is released, its size subtracted, its binding removed — exactly
until `totalBytes + s ≤ maxBytes` or the store is empty (an oversized
entry is still inserted after the store empties, witnessed by the
`n = length` disjunct); the new entry is then appended at the
most-recently-used end and `s` added to the total. -/
theorem c3_eviction (s : CacheState) (i : Nat) (item : ActiveLoad) (w h : Nat)
    (hi : s.active.get? i = some item) (hout : item.file.outcome = .ok w h)
    (hsum : s.totalBytes = sumSizes s.cache)
    (hcn : mapGet s.cache item.volumeUuid = none) :
    ∃ n, n ≤ s.cache.length ∧
      (settleActive s i).cache =
        s.cache.drop n ++
          [(item.volumeUuid, ⟨⟨s.nextBitmap, w, h⟩, w, h, w * h * 4⟩)] ∧
      (settleActive s i).totalBytes =
        sumSizes (s.cache.drop n) + ((w * h * 4 : Nat) : Int) ∧
      (settleActive s i).closed = s.closed ++
        (s.cache.take n).map (fun p => p.2.bitmap.id) ∧
      (∀ m, m < n →
        sumSizes (s.cache.drop m) + ((w * h * 4 : Nat) : Int) > s.maxBytes) ∧
      (sumSizes (s.cache.drop n) + ((w * h * 4 : Nat) : Int) ≤ s.maxBytes ∨
        n = s.cache.length) := by
  rw [settleActive_ok s i item w h hi hout]
  obtain ⟨n, hn, heq, hmin, hexit⟩ :=
    evictLoop_spec { s with nextBitmap := s.nextBitmap + 1 } (w * h * 4) hsum
  have hc2 : (evictLoop { s with nextBitmap := s.nextBitmap + 1 } (w * h * 4)).cache =
      s.cache.drop n := by rw [heq]
  have ht2 : (evictLoop { s with nextBitmap := s.nextBitmap + 1 } (w * h * 4)).totalBytes =
      sumSizes (s.cache.drop n) := by rw [heq]
  have hcl2 : (evictLoop { s with nextBitmap := s.nextBitmap + 1 } (w * h * 4)).closed =
      s.closed ++ (s.cache.take n).map (fun p => p.2.bitmap.id) := by rw [heq]
  refine ⟨n, hn, ?_, ?_, ?_, hmin, hexit⟩
  · rw [processQueue_cache]
    dsimp only
    rw [hc2]
    exact mapSet_of_mapGet_none _ _ _
      (mapGet_none_of_sublist (List.drop_sublist n s.cache) _ hcn)
  · rw [processQueue_totalBytes]
    dsimp only
    rw [ht2]
  · rw [processQueue_closed]
    dsimp only
    rw [hcl2]

/-- C3 witness: with two 16 MB entries cached (32 MB total) and a 24 MB
decode settling, exactly the least-recently-used entry is evicted
(32 + 24 > 50 MiB but 16 + 24 ≤ 50 MiB). -/
theorem c3_witness :
    ((run initState [Event.get "a" (fileOk 2000 2000), Event.settle 0,
        Event.get "b" (fileOk 2000 2000), Event.settle 0,
        Event.get "c" (fileOk 3000 2000)]).active.get? 0 =
          some ⟨"c", fileOk 3000 2000, 2⟩ ∧
      (run initState [Event.get "a" (fileOk 2000 2000), Event.settle 0,
        Event.get "b" (fileOk 2000 2000), Event.settle 0,
        Event.get "c" (fileOk 3000 2000)]).totalBytes =
          sumSizes (run initState [Event.get "a" (fileOk 2000 2000), Event.settle 0,
            Event.get "b" (fileOk 2000 2000), Event.settle 0,
            Event.get "c" (fileOk 3000 2000)]).cache) ∧
    (∃ n, n ≤ (run initState [Event.get "a" (fileOk 2000 2000), Event.settle 0,
        Event.get "b" (fileOk 2000 2000), Event.settle 0,
        Event.get "c" (fileOk 3000 2000)]).cache.length ∧
      (settleActive (run initState [Event.get "a" (fileOk 2000 2000), Event.settle 0,
        Event.get "b" (fileOk 2000 2000), Event.settle 0,
        Event.get "c" (fileOk 3000 2000)]) 0).cache =
        (run initState [Event.get "a" (fileOk 2000 2000), Event.settle 0,
          Event.get "b" (fileOk 2000 2000), Event.settle 0,
          Event.get "c" (fileOk 3000 2000)]).cache.drop n ++
          [("c", ⟨⟨(run initState [Event.get "a" (fileOk 2000 2000), Event.settle 0,
            Event.get "b" (fileOk 2000 2000), Event.settle 0,
            Event.get "c" (fileOk 3000 2000)]).nextBitmap, 3000, 2000⟩,
            3000, 2000, 3000 * 2000 * 4⟩)] ∧
      (settleActive (run initState [Event.get "a" (fileOk 2000 2000), Event.settle 0,
        Event.get "b" (fileOk 2000 2000), Event.settle 0,
        Event.get "c" (fileOk 3000 2000)]) 0).totalBytes =
        sumSizes ((run initState [Event.get "a" (fileOk 2000 2000), Event.settle 0,
          Event.get "b" (fileOk 2000 2000), Event.settle 0,
          Event.get "c" (fileOk 3000 2000)]).cache.drop n) +
          ((3000 * 2000 * 4 : Nat) : Int) ∧
      (settleActive (run initState [Event.get "a" (fileOk 2000 2000), Event.settle 0,
        Event.get "b" (fileOk 2000 2000), Event.settle 0,
        Event.get "c" (fileOk 3000 2000)]) 0).closed =
        (run initState [Event.get "a" (fileOk 2000 2000), Event.settle 0,
          Event.get "b" (fileOk 2000 2000), Event.settle 0,
          Event.get "c" (fileOk 3000 2000)]).closed ++
          ((run initState [Event.get "a" (fileOk 2000 2000), Event.settle 0,
            Event.get "b" (fileOk 2000 2000), Event.settle 0,
            Event.get "c" (fileOk 3000 2000)]).cache.take n).map
            (fun p => p.2.bitmap.id) ∧
      (∀ m, m < n →
        sumSizes ((run initState [Event.get "a" (fileOk 2000 2000), Event.settle 0,
          Event.get "b" (fileOk 2000 2000), Event.settle 0,
          Event.get "c" (fileOk 3000 2000)]).cache.drop m) +
          ((3000 * 2000 * 4 : Nat) : Int) >
          (run initState [Event.get "a" (fileOk 2000 2000), Event.settle 0,
            Event.get "b" (fileOk 2000 2000), Event.settle 0,
            Event.get "c" (fileOk 3000 2000)]).maxBytes) ∧
      (sumSizes ((run initState [Event.get "a" (fileOk 2000 2000), Event.settle 0,
          Event.get "b" (fileOk 2000 2000), Event.settle 0,
          Event.get "c" (fileOk 3000 2000)]).cache.drop n) +
          ((3000 * 2000 * 4 : Nat) : Int) ≤
          (run initState [Event.get "a" (fileOk 2000 2000), Event.settle 0,
            Event.get "b" (fileOk 2000 2000), Event.settle 0,
            Event.get "c" (fileOk 3000 2000)]).maxBytes ∨
        n = (run initState [Event.get "a" (fileOk 2000 2000), Event.settle 0,
          Event.get "b" (fileOk 2000 2000), Event.settle 0,
          Event.get "c" (fileOk 3000 2000)]).cache.length)) :=
  ⟨⟨by decide, by decide⟩,
    c3_eviction _ 0 ⟨"c", fileOk 3000 2000, 2⟩ 3000 2000
      (by decide) (by decide) (by decide) (by decide)⟩

/-- The §8 LIFO scenario: a single-slot instance with A occupying the
slot and B, C queued in that order. -/
def lifoScenario : CacheState :=
  { initState with
      maxConcurrent := 1
      active := [⟨"A", fileOk 1 1, 0⟩]
      queue := [⟨"B", fileOk 1 1, 1⟩, ⟨"C", fileOk 1 1, 2⟩]
      pending := [("A", 0), ("B", 1), ("C", 2)]
      promises := [(0, .pending), (1, .pending), (2, .pending)]
      nextPromise := 3 }

/-- C4: the admission queue drains last-in-first-out.  In one equation:
whenever slots free up, `processQueue` starts exactly the
`min (queue.length) (maxConcurrent - activeLoads)` MOST recently queued
items, most recent first, leaving the older ones queued.  In particular,
with ceiling 1 and requests queued A, B, C (A occupying the slot), once A
settles C starts while B stays queued. -/
theorem c4_lifo :
    (∀ s : CacheState, processQueue s =
      { s with queue := s.queue.take (s.queue.length - startCount s)
               active := s.active ++
                 ((s.queue.drop (s.queue.length - startCount s)).reverse.map
                   toActive) }) ∧
    (settleActive lifoScenario 0).active = [⟨"C", fileOk 1 1, 2⟩] ∧
    (settleActive lifoScenario 0).queue = [⟨"B", fileOk 1 1, 1⟩] := by
  refine ⟨processQueue_eq, ?_, ?_⟩ <;> decide

/-- C5: the number of concurrently active decodes never exceeds the fixed
ceiling of 6 in any state reachable from a fresh cache, whatever the
sequence of operations and settlements; and while every slot is occupied,
a further `get` starts nothing — the active set is unchanged (the request
only queues) until a settlement frees a slot and re-drains. -/
theorem c5_ceiling :
    (∀ es : List Event, (run initState es).active.length ≤ 6) ∧
    (∀ (es : List Event) (k : String) (f : File),
      (run initState es).active.length = (run initState es).maxConcurrent →
      (step (run initState es) (Event.get k f)).active =
        (run initState es).active) := by
  constructor
  · intro es
    obtain ⟨h1, h2⟩ := run_active_le es initState (by decide)
    rw [h2] at h1
    exact h1
  · intro es k f hfull
    exact get_active_full (run initState es) k f hfull

/-- C5 witness: ten simultaneous distinct-key requests leave exactly 6
decodes active, and an eleventh `get` while the slots are full starts
nothing. -/
theorem c5_witness :
    ((run initState [Event.get "a" (fileOk 1 1), Event.get "b" (fileOk 1 1),
        Event.get "c" (fileOk 1 1), Event.get "d" (fileOk 1 1),
        Event.get "e" (fileOk 1 1), Event.get "f" (fileOk 1 1),
        Event.get "g" (fileOk 1 1), Event.get "h" (fileOk 1 1),
        Event.get "i" (fileOk 1 1), Event.get "j" (fileOk 1 1)]).active.length ≤ 6) ∧
    ((run initState [Event.get "a" (fileOk 1 1), Event.get "b" (fileOk 1 1),
        Event.get "c" (fileOk 1 1), Event.get "d" (fileOk 1 1),
        Event.get "e" (fileOk 1 1), Event.get "f" (fileOk 1 1),
        Event.get "g" (fileOk 1 1), Event.get "h" (fileOk 1 1),
        Event.get "i" (fileOk 1 1), Event.get "j" (fileOk 1 1)]).active.length =
      (run initState [Event.get "a" (fileOk 1 1), Event.get "b" (fileOk 1 1),
        Event.get "c" (fileOk 1 1), Event.get "d" (fileOk 1 1),
        Event.get "e" (fileOk 1 1), Event.get "f" (fileOk 1 1),
        Event.get "g" (fileOk 1 1), Event.get "h" (fileOk 1 1),
        Event.get "i" (fileOk 1 1), Event.get "j" (fileOk 1 1)]).maxConcurrent ∧
      (step (run initState [Event.get "a" (fileOk 1 1), Event.get "b" (fileOk 1 1),
        Event.get "c" (fileOk 1 1), Event.get "d" (fileOk 1 1),
        Event.get "e" (fileOk 1 1), Event.get "f" (fileOk 1 1),
        Event.get "g" (fileOk 1 1), Event.get "h" (fileOk 1 1),
        Event.get "i" (fileOk 1 1), Event.get "j" (fileOk 1 1)])
          (Event.get "z" (fileOk 1 1))).active =
        (run initState [Event.get "a" (fileOk 1 1), Event.get "b" (fileOk 1 1),
          Event.get "c" (fileOk 1 1), Event.get "d" (fileOk 1 1),
          Event.get "e" (fileOk 1 1), Event.get "f" (fileOk 1 1),
          Event.get "g" (fileOk 1 1), Event.get "h" (fileOk 1 1),
          Event.get "i" (fileOk 1 1), Event.get "j" (fileOk 1 1)]).active) :=
  ⟨c5_ceiling.1 _, by decide,
    c5_ceiling.2 [Event.get "a" (fileOk 1 1), Event.get "b" (fileOk 1 1),
      Event.get "c" (fileOk 1 1), Event.get "d" (fileOk 1 1),
      Event.get "e" (fileOk 1 1), Event.get "f" (fileOk 1 1),
      Event.get "g" (fileOk 1 1), Event.get "h" (fileOk 1 1),
      Event.get "i" (fileOk 1 1), Event.get "j" (fileOk 1 1)]
      "z" (fileOk 1 1) (by decide)⟩

/-- C6: when the decode for a key fails, the shared promise every
coalesced caller holds is rejected, the key is removed from the pending
map, the store (hence every other key's entry) and the byte total are
untouched, no bitmap is released, and a subsequent `get` for the same key
enqueues a fresh decode request instead of returning the old failure. -/
theorem c6_failure (s : CacheState) (i : Nat) (item : ActiveLoad) (f2 : File)
    (hi : s.active.get? i = some item) (herr : item.file.outcome = .err)
    (hc : mapGet s.cache item.volumeUuid = none)
    (hnd : (keysOf s.pending).Nodup) :
    mapGet (settleActive s i).promises item.promise = some PromiseState.rejected ∧
    mapGet (settleActive s i).pending item.volumeUuid = none ∧
    (settleActive s i).cache = s.cache ∧
    (settleActive s i).totalBytes = s.totalBytes ∧
    (settleActive s i).closed = s.closed ∧
    (get (settleActive s i) item.volumeUuid f2).2 =
      GetResult.queued (settleActive s i).nextPromise := by
  rw [settleActive_err s i item hi herr]
  have hpend : mapGet (processQueue
      { s with promises := mapSet s.promises item.promise .rejected
               active := s.active.eraseIdx i
               pending := mapDelete s.pending item.volumeUuid }).pending
      item.volumeUuid = none := by
    rw [processQueue_pending]
    dsimp only
    exact mapGet_mapDelete_self_of_nodup s.pending item.volumeUuid hnd
  have hcache : (processQueue
      { s with promises := mapSet s.promises item.promise .rejected
               active := s.active.eraseIdx i
               pending := mapDelete s.pending item.volumeUuid }).cache = s.cache := by
    rw [processQueue_cache]
  refine ⟨?_, hpend, hcache, ?_, ?_, ?_⟩
  · rw [processQueue_promises]
    dsimp only
    exact mapGet_mapSet_self s.promises item.promise .rejected
  · rw [processQueue_totalBytes]
  · rw [processQueue_closed]
  · unfold get
    rw [hcache, hc]
    dsimp only
    rw [hpend]

/-- C6 witness: a failing decode for `"a"` rejects promise 0, clears the
pending entry, leaves the store empty and untouched, and a retry enqueues
a fresh request. -/
theorem c6_witness :
    ((run initState [Event.get "a" fileErr]).active.get? 0 =
        some ⟨"a", fileErr, 0⟩ ∧
      (keysOf (run initState [Event.get "a" fileErr]).pending).Nodup) ∧
    (mapGet (settleActive (run initState [Event.get "a" fileErr]) 0).promises 0 =
        some PromiseState.rejected ∧
      mapGet (settleActive (run initState [Event.get "a" fileErr]) 0).pending "a" =
        none ∧
      (settleActive (run initState [Event.get "a" fileErr]) 0).cache =
        (run initState [Event.get "a" fileErr]).cache ∧
      (settleActive (run initState [Event.get "a" fileErr]) 0).totalBytes =
        (run initState [Event.get "a" fileErr]).totalBytes ∧
      (settleActive (run initState [Event.get "a" fileErr]) 0).closed =
        (run initState [Event.get "a" fileErr]).closed ∧
      (get (settleActive (run initState [Event.get "a" fileErr]) 0) "a"
          (fileOk 1 1)).2 =
        GetResult.queued (settleActive (run initState [Event.get "a" fileErr])
          0).nextPromise) :=
  ⟨⟨by decide, by decide⟩,
    c6_failure (run initState [Event.get "a" fileErr]) 0 ⟨"a", fileErr, 0⟩
      (fileOk 1 1) (by decide) (by decide) (by decide) (by decide)⟩

/-- C7: `invalidate` on a stored key synchronously releases the entry's
bitmap, subtracts exactly its size from the byte counter, and removes the
binding so `has` returns false; it also deletes the key from the pending
map and strips every queued request for the key from the admission queue;
on a key with no store entry the byte counter is unchanged (pending and
queue are still purged). -/
theorem c7_invalidate (s : CacheState) (k : String)
    (hndc : (keysOf s.cache).Nodup) (hndp : (keysOf s.pending).Nodup) :
    (∀ e, mapGet s.cache k = some e →
      has (invalidate s k) k = false ∧
      (invalidate s k).totalBytes = s.totalBytes - (e.size : Int) ∧
      e.bitmap.id ∈ (invalidate s k).closed ∧
      mapGet (invalidate s k).pending k = none ∧
      (∀ q ∈ (invalidate s k).queue, q.volumeUuid ≠ k)) ∧
    (mapGet s.cache k = none →
      (invalidate s k).totalBytes = s.totalBytes ∧
      mapGet (invalidate s k).pending k = none ∧
      (∀ q ∈ (invalidate s k).queue, q.volumeUuid ≠ k)) := by
  constructor
  · intro e he
    rw [invalidate_some s k e he]
    refine ⟨?_, rfl, ?_, ?_, ?_⟩
    · unfold has
      dsimp only
      rw [mapGet_mapDelete_self_of_nodup s.cache k hndc]
      rfl
    · dsimp only
      exact List.mem_append.mpr (Or.inr (List.mem_singleton.mpr rfl))
    · dsimp only
      exact mapGet_mapDelete_self_of_nodup s.pending k hndp
    · intro q hq
      dsimp only at hq
      have := (List.mem_filter.mp hq).2
      simpa using this
  · intro he
    rw [invalidate_none s k he]
    refine ⟨rfl, ?_, ?_⟩
    · dsimp only
      exact mapGet_mapDelete_self_of_nodup s.pending k hndp
    · intro q hq
      dsimp only at hq
      have := (List.mem_filter.mp hq).2
      simpa using this

/-- C7 witness: after caching `"a"` (400 bytes), invalidating it closes
bitmap 0, drops the counter by exactly 400, and `has` is false;
invalidating the absent `"b"` leaves the counter unchanged. -/
theorem c7_witness :
    ((keysOf (run initState [Event.get "a" (fileOk 10 10),
        Event.settle 0]).cache).Nodup ∧
      (keysOf (run initState [Event.get "a" (fileOk 10 10),
        Event.settle 0]).pending).Nodup ∧
      mapGet (run initState [Event.get "a" (fileOk 10 10),
        Event.settle 0]).cache "a" = some ⟨⟨0, 10, 10⟩, 10, 10, 400⟩ ∧
      mapGet (run initState [Event.get "a" (fileOk 10 10),
        Event.settle 0]).cache "b" = none) ∧
    ((has (invalidate (run initState [Event.get "a" (fileOk 10 10),
        Event.settle 0]) "a") "a" = false ∧
      (invalidate (run initState [Event.get "a" (fileOk 10 10),
        Event.settle 0]) "a").totalBytes =
        (run initState [Event.get "a" (fileOk 10 10),
          Event.settle 0]).totalBytes - ((400 : Nat) : Int) ∧
      (0 : Nat) ∈ (invalidate (run initState [Event.get "a" (fileOk 10 10),
        Event.settle 0]) "a").closed) ∧
     (invalidate (run initState [Event.get "a" (fileOk 10 10),
        Event.settle 0]) "b").totalBytes =
       (run initState [Event.get "a" (fileOk 10 10), Event.settle 0]).totalBytes) :=
  ⟨⟨by decide, by decide, by decide, by decide⟩,
    ⟨((c7_invalidate (run initState [Event.get "a" (fileOk 10 10), Event.settle 0])
        "a" (by decide) (by decide)).1 ⟨⟨0, 10, 10⟩, 10, 10, 400⟩ (by decide)).1,
      ((c7_invalidate (run initState [Event.get "a" (fileOk 10 10), Event.settle 0])
        "a" (by decide) (by decide)).1 ⟨⟨0, 10, 10⟩, 10, 10, 400⟩ (by decide)).2.1,
      ((c7_invalidate (run initState [Event.get "a" (fileOk 10 10), Event.settle 0])
        "a" (by decide) (by decide)).1 ⟨⟨0, 10, 10⟩, 10, 10, 400⟩ (by decide)).2.2.1⟩,
    ((c7_invalidate (run initState [Event.get "a" (fileOk 10 10), Event.settle 0])
        "b" (by decide) (by decide)).2 (by decide)).1⟩

theorem filter_mapDelete {κ α : Type} [DecidableEq κ] (m : List (κ × α)) (k : κ) :
    (mapDelete m k).filter (fun x => x.1 != k) = m.filter (fun x => x.1 != k) := by
  induction m with
  | nil => rw [mapDelete_nil]
  | cons p rest ih =>
      obtain ⟨k', v'⟩ := p
      rw [mapDelete_cons]
      by_cases h2 : k' = k
      · subst h2
        rw [if_pos rfl, List.filter_cons_of_neg (by simp)]
      · rw [if_neg h2]
        have hpk : ((fun x : κ × α => x.1 != k) (k', v')) = true := by
          simp [h2]
        have hstep : ∀ l : List (κ × α),
            List.filter (fun x => x.1 != k) ((k', v') :: l) =
              (k', v') :: List.filter (fun x => x.1 != k) l :=
          fun l => List.filter_cons_of_pos hpk
        rw [hstep, hstep, ih]

/-- C8: a cache hit through `get` or `getSync` returns the stored entry
unchanged and moves it to the most-recently-used (last) position, leaving
every other entry's relative order (the store filtered to the other keys),
the byte total, the pending map, the queue, the active set, and the closed
list untouched; `get` on a hit has exactly the same state effect as
`getSync`; and `has` is a pure membership check computed from the store
lookup alone. -/
theorem c8_recency (s : CacheState) (k : String) (e : CacheEntry) (f : File)
    (h : mapGet s.cache k = some e) (hnd : (keysOf s.cache).Nodup) :
    (getSync s k).2 = some e ∧
    (getSync s k).1.cache = mapDelete s.cache k ++ [(k, e)] ∧
    (getSync s k).1.totalBytes = s.totalBytes ∧
    (getSync s k).1.pending = s.pending ∧
    (getSync s k).1.queue = s.queue ∧
    (getSync s k).1.active = s.active ∧
    (getSync s k).1.closed = s.closed ∧
    (getSync s k).1.cache.filter (fun p => p.1 != k) =
      s.cache.filter (fun p => p.1 != k) ∧
    get s k f = ((getSync s k).1, GetResult.hit e) ∧
    has s k = ((mapGet s.cache k).isSome) := by
  have hsync2 : (getSync s k).2 = some e := by
    unfold getSync
    rw [h]
  have hfst := getSync_fst s k
  have hcache : (getSync s k).1.cache = mapDelete s.cache k ++ [(k, e)] := by
    rw [hfst]
    exact touch_cache_of_some s k e h hnd
  obtain ⟨e1, e2, e3, e4, e5, e6, e7, e8, e9, e10⟩ := touch_eff s k
  refine ⟨hsync2, hcache, ?_, ?_, ?_, ?_, ?_, ?_, ?_, rfl⟩
  · rw [hfst]; exact e4
  · rw [hfst]; exact e1
  · rw [hfst]; exact e2
  · rw [hfst]; exact e3
  · rw [hfst]; exact e9
  · rw [hcache, List.filter_append, List.filter_cons_of_neg (by simp),
      List.filter_nil, List.append_nil]
    exact filter_mapDelete s.cache k
  · unfold get
    rw [h, hfst]

/-- C8 witness: with `"a"` (400 bytes) and `"b"` (1600 bytes) cached in
that order, a `getSync "a"` hit moves `"a"` behind `"b"`, returns the
entry unchanged, and changes neither the total nor `"b"`'s entry. -/
theorem c8_witness :
    (mapGet (run initState [Event.get "a" (fileOk 10 10), Event.settle 0,
        Event.get "b" (fileOk 20 20), Event.settle 0]).cache "a" =
        some ⟨⟨0, 10, 10⟩, 10, 10, 400⟩ ∧
      (keysOf (run initState [Event.get "a" (fileOk 10 10), Event.settle 0,
        Event.get "b" (fileOk 20 20), Event.settle 0]).cache).Nodup) ∧
    ((getSync (run initState [Event.get "a" (fileOk 10 10), Event.settle 0,
        Event.get "b" (fileOk 20 20), Event.settle 0]) "a").2 =
        some ⟨⟨0, 10, 10⟩, 10, 10, 400⟩ ∧
      (getSync (run initState [Event.get "a" (fileOk 10 10), Event.settle 0,
        Event.get "b" (fileOk 20 20), Event.settle 0]) "a").1.cache =
        mapDelete (run initState [Event.get "a" (fileOk 10 10), Event.settle 0,
          Event.get "b" (fileOk 20 20), Event.settle 0]).cache "a" ++
          [("a", ⟨⟨0, 10, 10⟩, 10, 10, 400⟩)] ∧
      (getSync (run initState [Event.get "a" (fileOk 10 10), Event.settle 0,
        Event.get "b" (fileOk 20 20), Event.settle 0]) "a").1.totalBytes =
        (run initState [Event.get "a" (fileOk 10 10), Event.settle 0,
          Event.get "b" (fileOk 20 20), Event.settle 0]).totalBytes) :=
  ⟨⟨by decide, by decide⟩,
    (c8_recency (run initState [Event.get "a" (fileOk 10 10), Event.settle 0,
        Event.get "b" (fileOk 20 20), Event.settle 0]) "a"
      ⟨⟨0, 10, 10⟩, 10, 10, 400⟩ (fileOk 1 1) (by decide) (by decide)).1,
    (c8_recency (run initState [Event.get "a" (fileOk 10 10), Event.settle 0,
        Event.get "b" (fileOk 20 20), Event.settle 0]) "a"
      ⟨⟨0, 10, 10⟩, 10, 10, 400⟩ (fileOk 1 1) (by decide) (by decide)).2.1,
    (c8_recency (run initState [Event.get "a" (fileOk 10 10), Event.settle 0,
        Event.get "b" (fileOk 20 20), Event.settle 0]) "a"
      ⟨⟨0, 10, 10⟩, 10, 10, 400⟩ (fileOk 1 1) (by decide) (by decide)).2.2.1⟩

/-- C9 (counterexample): the claim "after invalidate, a completing
decode's successful result is never inserted into the store" is false:
`get "a"` starts the decode, `invalidate "a"` runs while it is active, and
when the decode settles `load` unconditionally executes
`cache.set(volumeUuid, entry); totalBytes += size`, so the store contains
`"a"` and the total includes its 400 bytes. -/
theorem c9_counterexample :
    mapGet (run initState [Event.get "a" (fileOk 10 10), Event.invalidate "a",
      Event.settle 0]).cache "a" = some ⟨⟨0, 10, 10⟩, 10, 10, 400⟩ ∧
    (run initState [Event.get "a" (fileOk 10 10), Event.invalidate "a",
      Event.settle 0]).totalBytes = 400 := by
  constructor
  · decide
  · decide

/-- C9 (amended): a decode active at the time of `invalidate` runs to
completion and its successful result IS inserted into the store: whenever
any active decode settles successfully, the store afterwards maps its key
to the freshly decoded entry and the byte total includes the entry's size
(the `load` continuation performs no invalidation check). -/
theorem c9_reinsert (s : CacheState) (i : Nat) (item : ActiveLoad) (w h : Nat)
    (hi : s.active.get? i = some item) (hout : item.file.outcome = .ok w h) :
    mapGet (settleActive s i).cache item.volumeUuid =
      some ⟨⟨s.nextBitmap, w, h⟩, w, h, w * h * 4⟩ ∧
    (settleActive s i).totalBytes =
      (evictLoop { s with nextBitmap := s.nextBitmap + 1 } (w * h * 4)).totalBytes +
        ((w * h * 4 : Nat) : Int) := by
  rw [settleActive_ok s i item w h hi hout]
  constructor
  · rw [processQueue_cache]
    dsimp only
    exact mapGet_mapSet_self _ item.volumeUuid _
  · rw [processQueue_totalBytes]

/-- C9 witness: the invalidated-while-decoding scenario, settled through
the amended theorem — the entry for `"a"` is back in the store. -/
theorem c9_witness :
    ((run initState [Event.get "a" (fileOk 10 10),
        Event.invalidate "a"]).active.get? 0 = some ⟨"a", fileOk 10 10, 0⟩) ∧
    (mapGet (settleActive (run initState [Event.get "a" (fileOk 10 10),
        Event.invalidate "a"]) 0).cache "a" =
      some ⟨⟨(run initState [Event.get "a" (fileOk 10 10),
        Event.invalidate "a"]).nextBitmap, 10, 10⟩, 10, 10, 400⟩) :=
  ⟨by decide,
    (c9_reinsert (run initState [Event.get "a" (fileOk 10 10),
      Event.invalidate "a"]) 0 ⟨"a", fileOk 10 10, 0⟩ 10 10
      (by decide) (by decide)).1⟩

/-- C10: if `invalidate(key)` strips a queued-but-not-started request from
the admission queue (its resolve/reject continuations live only in that
queue item), the promise `get` returned for it is never resolved and never
rejected by any subsequent sequence of operations — every caller awaiting
it waits forever. -/
theorem c10_orphan (s : CacheState) (k : String) (pid : Nat)
    (_hq : ∃ q ∈ s.queue, q.promise = pid ∧ q.volumeUuid = k)
    (h1 : ∀ a ∈ s.active, a.promise ≠ pid)
    (h2 : ∀ q ∈ s.queue, q.promise = pid → q.volumeUuid = k)
    (h3 : mapGet s.promises pid = some PromiseState.pending)
    (h4 : pid < s.nextPromise) :
    ∀ es : List Event,
      mapGet (run (invalidate s k) es).promises pid =
        some PromiseState.pending := by
  intro es
  have horph : Orphaned (invalidate s k) pid := by
    have hqueue : ∀ q ∈ (invalidate s k).queue, q.promise ≠ pid := by
      intro q hmem hpid
      have hfilter : (invalidate s k).queue =
          s.queue.filter (fun item => item.volumeUuid != k) := by
        cases he : mapGet s.cache k with
        | some e => rw [invalidate_some s k e he]
        | none => rw [invalidate_none s k he]
      rw [hfilter] at hmem
      obtain ⟨hmem2, hcond⟩ := List.mem_filter.mp hmem
      have := h2 q hmem2 hpid
      simp [this] at hcond
    have hfields : (invalidate s k).promises = s.promises ∧
        (invalidate s k).active = s.active ∧
        (invalidate s k).nextPromise = s.nextPromise := by
      cases he : mapGet s.cache k with
      | some e => rw [invalidate_some s k e he]; exact ⟨rfl, rfl, rfl⟩
      | none => rw [invalidate_none s k he]; exact ⟨rfl, rfl, rfl⟩
    refine ⟨?_, hqueue, ?_, ?_⟩
    · rw [hfields.1]; exact h3
    · rw [hfields.2.1]; exact h1
    · rw [hfields.2.2]; exact h4
  exact (Orphaned_run es (invalidate s k) pid horph).1

/-- C10 witness: with seven requests (six active, `"g"` queued with
promise 6), invalidating `"g"` removes its queue item; promise 6 then
stays pending even after a fresh `get "g"`, its settlement, and a
`clear`. -/
theorem c10_witness :
    ((∃ q ∈ (run initState [Event.get "a" (fileOk 1 1), Event.get "b" (fileOk 1 1),
        Event.get "c" (fileOk 1 1), Event.get "d" (fileOk 1 1),
        Event.get "e" (fileOk 1 1), Event.get "f" (fileOk 1 1),
        Event.get "g" (fileOk 1 1)]).queue,
        q.promise = 6 ∧ q.volumeUuid = "g") ∧
      mapGet (run initState [Event.get "a" (fileOk 1 1), Event.get "b" (fileOk 1 1),
        Event.get "c" (fileOk 1 1), Event.get "d" (fileOk 1 1),
        Event.get "e" (fileOk 1 1), Event.get "f" (fileOk 1 1),
        Event.get "g" (fileOk 1 1)]).promises 6 = some PromiseState.pending) ∧
    mapGet (run (invalidate (run initState [Event.get "a" (fileOk 1 1),
        Event.get "b" (fileOk 1 1), Event.get "c" (fileOk 1 1),
        Event.get "d" (fileOk 1 1), Event.get "e" (fileOk 1 1),
        Event.get "f" (fileOk 1 1), Event.get "g" (fileOk 1 1)]) "g")
      [Event.get "g" (fileOk 1 1), Event.settle 0, Event.clear]).promises 6 =
      some PromiseState.pending :=
  ⟨⟨by decide, by decide⟩,
    c10_orphan (run initState [Event.get "a" (fileOk 1 1), Event.get "b" (fileOk 1 1),
        Event.get "c" (fileOk 1 1), Event.get "d" (fileOk 1 1),
        Event.get "e" (fileOk 1 1), Event.get "f" (fileOk 1 1),
        Event.get "g" (fileOk 1 1)]) "g" 6
      (by decide) (by decide) (by decide) (by decide) (by decide)
      [Event.get "g" (fileOk 1 1), Event.settle 0, Event.clear]⟩

end ThumbCache
